import Mathlib

/-
Verification of the open-trickler-peripheral control software.

The Python sources are shallowly embedded: Python strings are List Char,
byte strings are List Nat (each entry a byte value), decimal.Decimal values
are a (sign, coefficient digits, exponent) structure, and methods that can
raise return Except carrying the exception and the partially mutated
object state.  Machine floats never carry weight values in the source
(weights are decimal.Decimal); the loop models numeric values in Rat.
-/

namespace OpenTrickler

/-! ## Python string / bytes primitives -/

/-- Byte values stripped by bytes.strip() with no argument (ASCII whitespace). -/
def pyWsBytes : List Nat := [32, 9, 10, 13, 11, 12]

/-- Characters stripped by str.strip() with no argument (ASCII fragment;
the inputs handled by this program are ASCII). -/
def pyWsChars : List Char := [' ', '\t', '\n', '\r', Char.ofNat 11, Char.ofNat 12]

def isPyWsChar (c : Char) : Bool := c ∈ pyWsChars

/-- Python bytes.strip(): drop ASCII whitespace bytes from both ends. -/
def bytesStrip (l : List Nat) : List Nat :=
  ((l.dropWhile (· ∈ pyWsBytes)).reverse.dropWhile (· ∈ pyWsBytes)).reverse

/-- Python raw.rstrip(b'\r\n') as used by the Creedmoor and US Solid decoders. -/
def bytesRStripCRLF (l : List Nat) : List Nat :=
  (l.reverse.dropWhile (fun b => b = 13 ∨ b = 10)).reverse

/-- Python str.strip() with no argument. -/
def strStrip (l : List Char) : List Char :=
  ((l.dropWhile isPyWsChar).reverse.dropWhile isPyWsChar).reverse

/-- Python slice s[a:b] for 0 ≤ a ≤ b (clamping semantics of list slicing). -/
def pySlice (a b : Nat) (l : List α) : List α := (l.drop a).take (b - a)

/-! ## UTF-8 (Python str.encode / bytes.decode, strict errors) -/

/-- UTF-8 encoding of one character (str.encode). -/
def utf8EncodeChar (c : Char) : List Nat :=
  let n := c.toNat
  if n < 0x80 then [n]
  else if n < 0x800 then [0xC0 + n / 64, 0x80 + n % 64]
  else if n < 0x10000 then [0xE0 + n / 4096, 0x80 + n / 64 % 64, 0x80 + n % 64]
  else [0xF0 + n / 262144, 0x80 + n / 4096 % 64, 0x80 + n / 64 % 64, 0x80 + n % 64]

/-- UTF-8 encoding of a string (str.encode('utf-8')). -/
def utf8Encode (s : List Char) : List Nat := (s.map utf8EncodeChar).flatten

/-- A UTF-8 continuation byte. -/
def utf8Cont (b : Nat) : Bool := 0x80 ≤ b ∧ b ≤ 0xBF

/-- Decode one UTF-8 character from a first byte and the remaining bytes,
returning the character and the bytes left over; none models a raised
UnicodeDecodeError.  Overlong forms and surrogates are rejected, as CPython
does. -/
def utf8DecodeChunk (b : Nat) (rest : List Nat) : Option (Char × List Nat) :=
  if b < 0x80 then some (Char.ofNat b, rest)
  else if 0xC2 ≤ b ∧ b ≤ 0xDF then
    match rest with
    | b1 :: r1 =>
      if utf8Cont b1 then some (Char.ofNat ((b - 0xC0) * 64 + (b1 - 0x80)), r1)
      else none
    | [] => none
  else if 0xE0 ≤ b ∧ b ≤ 0xEF then
    match rest with
    | b1 :: b2 :: r2 =>
      let lo := if b = 0xE0 then 0xA0 else 0x80
      let hi := if b = 0xED then 0x9F else 0xBF
      if (lo ≤ b1 ∧ b1 ≤ hi) ∧ utf8Cont b2 then
        some (Char.ofNat ((b - 0xE0) * 4096 + (b1 - 0x80) * 64 + (b2 - 0x80)), r2)
      else none
    | _ => none
  else if 0xF0 ≤ b ∧ b ≤ 0xF4 then
    match rest with
    | b1 :: b2 :: b3 :: r3 =>
      let lo := if b = 0xF0 then 0x90 else 0x80
      let hi := if b = 0xF4 then 0x8F else 0xBF
      if (lo ≤ b1 ∧ b1 ≤ hi) ∧ utf8Cont b2 ∧ utf8Cont b3 then
        some (Char.ofNat ((b - 0xF0) * 262144 + (b1 - 0x80) * 4096 +
          (b2 - 0x80) * 64 + (b3 - 0x80)), r3)
      else none
    | _ => none
  else none

/-- Decode a UTF-8 byte sequence character by character. Each character
consumes at least the leading byte, so a fuel of the byte count suffices;
the out-of-fuel case is unreachable when the fuel is the length. -/
def utf8DecodeAux : Nat → List Nat → Option (List Char)
  | _, [] => some []
  | 0, _ :: _ => none
  | fuel + 1, b :: rest =>
    match utf8DecodeChunk b rest with
    | none => none
    | some (c, r) => (utf8DecodeAux fuel r).map (c :: ·)

/-- Strict UTF-8 decoding (bytes.decode('utf-8')): none models a raised
UnicodeDecodeError. -/
def utf8Decode (l : List Nat) : Option (List Char) := utf8DecodeAux l.length l

/-! ## decimal.Decimal (finite values)

The program only ever builds finite decimals from numeric strings and
renders them with str(); the special values (NaN, Infinity) and the
underscore-tolerant constructor extensions are outside the fragment the
program exercises and are not modelled. -/

/-- A finite Python decimal.Decimal: sign (true = negative), coefficient
digits (big-endian, as CPython keeps them in Decimal._int), exponent. -/
structure Dec where
  sign : Bool
  digits : List Nat
  exp : Int
deriving DecidableEq

/-- CPython stores the coefficient as str(int(...)): nonempty, digits < 10,
no leading zero unless the coefficient is the single digit 0. -/
def Dec.Valid (d : Dec) : Prop :=
  d.digits ≠ [] ∧ (∀ k ∈ d.digits, k < 10) ∧ (d.digits.head? ≠ some 0 ∨ d.digits = [0])

/-- Value of a big-endian digit list. -/
def natOfDigits (ds : List Nat) : Nat := ds.foldl (fun a k => 10 * a + k) 0

/-- Numeric value of a finite decimal. -/
def Dec.toRat (d : Dec) : ℚ :=
  (if d.sign then -1 else 1) * (natOfDigits d.digits : ℚ) * (10 : ℚ) ^ d.exp

def isDigitCh (c : Char) : Bool := 48 ≤ c.toNat ∧ c.toNat ≤ 57

def digitVal (c : Char) : Nat := c.toNat - 48

/-- Digit characters of a digit list. -/
def digitsToChars (ds : List Nat) : List Char := ds.map (fun k => Char.ofNat (48 + k))

/-- Parse a run of digit characters (all characters must be digits). -/
def charsToDigits (l : List Char) : Option (List Nat) :=
  if l.all isDigitCh then some (l.map digitVal) else none

/-- Effect of str(int(s)) on a digit string: strip leading zeros, keeping a
single 0 for the zero coefficient. -/
def stripZeros (ds : List Nat) : List Nat :=
  if ds.dropWhile (· = 0) = [] then [0] else ds.dropWhile (· = 0)

/-- Split a character list at the first character satisfying p; the second
component is some tail iff such a character occurs. -/
def splitFirst (p : Char → Bool) : List Char → List Char × Option (List Char)
  | [] => ([], none)
  | c :: r =>
    if p c then ([], some r)
    else
      let s := splitFirst p r
      (c :: s.1, s.2)

/-- Strip an optional leading sign, returning (negative?, rest). -/
def takeSign (s : List Char) : Bool × List Char :=
  match s with
  | [] => (false, [])
  | c :: r =>
    if c = '+' then (false, r)
    else if c = '-' then (true, r)
    else (false, c :: r)

/-- Parse the text after the E of an exponent: [+-]?digits. -/
def parseExpTail (l : List Char) : Option Int :=
  let sr := takeSign l
  if sr.2 ≠ [] ∧ sr.2.all isDigitCh then
    some (if sr.1 then -(natOfDigits (sr.2.map digitVal) : Int)
          else (natOfDigits (sr.2.map digitVal) : Int))
  else none

/-- The decimal.Decimal(str) constructor on its finite-numeral fragment:
optional surrounding whitespace, optional sign, digits with an optional
point (at least one digit overall), optional [eE][+-]?digits exponent.
none models a raised decimal.InvalidOperation (ConversionSyntax). -/
def pyDecimalParse (s0 : List Char) : Option Dec :=
  let s := strStrip s0
  let sgn := takeSign s
  let m := splitFirst (fun c => c = 'e' ∨ c = 'E') sgn.2
  let expv : Option Int :=
    match m.2 with
    | none => some 0
    | some etail => parseExpTail etail
  match expv with
  | none => none
  | some ev =>
    let ip := splitFirst (fun c => c = '.') m.1
    let fp := ip.2.getD []
    match charsToDigits ip.1, charsToDigits fp with
    | some ids, some fds =>
      if ip.1 = [] ∧ fp = [] then none
      else some { sign := sgn.1, digits := stripZeros (ids ++ fds), exp := ev - fp.length }
    | _, _ => none

/-- Big-endian decimal digits of a natural number. -/
def digitsBE (n : Nat) : List Nat :=
  if n = 0 then [0] else (Nat.digits 10 n).reverse

/-- Decimal digits of a natural number, big-endian ("%d" rendering). -/
def natToChars (n : Nat) : List Char := digitsToChars (digitsBE n)

/-- str() of a finite decimal: CPython Decimal.__str__ (to_sci_string with
the default context). -/
def decToString (d : Dec) : List Char :=
  let n : Int := d.digits.length
  let leftdigits : Int := d.exp + n
  let dotplace : Int := if d.exp ≤ 0 ∧ -6 < leftdigits then leftdigits else 1
  let body : List Char :=
    if dotplace ≤ 0 then
      '0' :: '.' :: (List.replicate (-dotplace).toNat '0' ++ digitsToChars d.digits)
    else if n ≤ dotplace then
      digitsToChars d.digits ++ List.replicate (dotplace - n).toNat '0'
    else
      digitsToChars (d.digits.take dotplace.toNat) ++
        '.' :: digitsToChars (d.digits.drop dotplace.toNat)
  let epart : List Char :=
    if leftdigits = dotplace then []
    else
      'E' :: (if leftdigits - dotplace < 0 then '-' :: natToChars (leftdigits - dotplace).natAbs
              else '+' :: natToChars (leftdigits - dotplace).toNat)
  (if d.sign then ['-'] else []) ++ body ++ epart

/-- Spec-side definition (section 8): the exact rational value denoted by a
signed fixed-point numeric substring, written directly from the spec's
words ("the parsed numeric substring exactly, no rounding") rather than
from the code, for comparison with the decoder's stored weight. -/
def specNumeralValue (s : List Char) : Option ℚ :=
  let sr := takeSign s
  let ip := splitFirst (fun c => c = '.') sr.2
  let fp := ip.2.getD []
  match charsToDigits ip.1, charsToDigits fp with
  | some ids, some fds =>
    if ip.1 = [] ∧ fp = [] then none
    else some ((if sr.1 then -1 else 1) * (natOfDigits (ids ++ fds) : ℚ) / 10 ^ fp.length)
  | _, _ => none

/-! ## Scales (trickler/scales.py) -/

/-- SerialScale.Units. -/
inductive Units where
  | GRAINS
  | GRAMS
deriving DecidableEq

/-- SerialScale.StatusMap. -/
inductive StatusMap where
  | STABLE
  | UNSTABLE
  | OVERLOAD
  | ERROR
  | MODEL_NUMBER
  | SERIAL_NUMBER
  | ACKNOWLEDGE
deriving DecidableEq

/-- Python exceptions that the embedded fragments can raise. -/
inductive PyErr where
  | invalidOperation
  | keyError
  | attributeError
  | unicodeDecodeError
  | structError
  | indexError
  | nameError
  | valueError
deriving DecidableEq

/-- The canonical scale fields published to memcache by
SerialScale._update_memcache. -/
structure Published where
  status : StatusMap
  weight : Dec
  unit : Units
  resolution : Dec
  is_stable : Bool
deriving DecidableEq

/-- SerialScale._check_stability: STABLE iff the reading deque is full
(len == maxlen) and holds exactly one distinct line (len(set) == 1). -/
def check_stability (maxlen : Nat) (readings : List (List Char)) : StatusMap :=
  if readings.length = maxlen ∧ readings.dedup.length = 1 then .STABLE else .UNSTABLE

/-- collections.deque(maxlen=maxlen).append: the oldest entry is dropped
from the left once the deque is full. -/
def dequeAppend (maxlen : Nat) (readings : List (List Char)) (line : List Char) :
    List (List Char) :=
  let e := readings ++ [line]
  e.drop (e.length - maxlen)

/-- The last n entries of a list. -/
def takeRight (n : Nat) (l : List α) : List α := l.drop (l.length - n)

/-- Feeding a sequence of lines into the reading deque. -/
def feedLines (maxlen : Nat) (rs : List (List Char)) (ls : List (List Char)) :
    List (List Char) :=
  ls.foldl (dequeAppend maxlen) rs

/-- ANDScale.unit_map. -/
def andUnitMap (s : List Char) : Option Units :=
  if s = ['G', 'N'] then some .GRAINS
  else if s = ['g'] then some .GRAMS
  else none

/-- ANDScale.resolution_map: 0.02 gr, 0.0001 g. -/
def andResolutionMap : Units → Dec
  | .GRAINS => ⟨false, [2], -2⟩
  | .GRAMS => ⟨false, [1], -4⟩

/-- An ANDScale instance's mutable fields, including the memcache mirror. -/
structure ANDState where
  status : StatusMap
  weight : Dec
  unit : Units
  resolution : Dec
  published : Option Published
deriving DecidableEq

/-- SerialScale._update_memcache specialised to the AND scale fields. -/
def andPublish (st : ANDState) : ANDState :=
  { st with published := some ⟨st.status, st.weight, st.unit, st.resolution,
      st.status = StatusMap.STABLE⟩ }

/-- ANDScale._stable_unstable: weight from line[3:12].strip(), unit from
line[12:15].strip(); a parse failure raises decimal.InvalidOperation after
no field was assigned, an unknown unit token raises KeyError after the
weight was already assigned (the error carries the partially mutated
state). -/
def andStableUnstable (st0 : ANDState) (line : List Char) :
    Except (PyErr × ANDState) ANDState :=
  match pyDecimalParse (strStrip (pySlice 3 12 line)) with
  | none => .error (.invalidOperation, st0)
  | some w =>
    let st1 := { st0 with weight := w }
    match andUnitMap (strStrip (pySlice 12 15 line)) with
    | none => .error (.keyError, st1)
    | some u =>
      .ok (andPublish { st1 with unit := u, resolution := andResolutionMap u })

/-- The prefixes ANDScale.update dispatches on. -/
def andPrefixes : List (List Char) :=
  [['S', 'T'], ['U', 'S'], ['O', 'L'], ['E', 'C'], ['A', 'K'], ['T', 'N'], ['S', 'N']]

/-- ANDScale.update on one raw serial line: strip, decode (a
UnicodeDecodeError is caught and logged, leaving every field untouched),
dispatch on line[0:2]; unrecognized prefixes fall through to noop. -/
def andUpdate (st : ANDState) (raw : List Nat) : Except (PyErr × ANDState) ANDState :=
  match utf8Decode (bytesStrip raw) with
  | none => .ok st
  | some line =>
    let pfx := pySlice 0 2 line
    if pfx = ['S', 'T'] then andStableUnstable { st with status := .STABLE } line
    else if pfx = ['U', 'S'] then andStableUnstable { st with status := .UNSTABLE } line
    else if pfx = ['O', 'L'] then .ok (andPublish { st with status := .OVERLOAD })
    else if pfx = ['E', 'C'] then .ok (andPublish { st with status := .ERROR })
    else if pfx = ['A', 'K'] then .ok (andPublish { st with status := .ACKNOWLEDGE })
    else if pfx = ['T', 'N'] then .ok { st with status := .MODEL_NUMBER }
    else if pfx = ['S', 'N'] then .ok { st with status := .SERIAL_NUMBER }
    else .ok st

/-- State of a scale that infers stability from its reading deque
(CreedmoorScale and USSolidScale share this shape). -/
structure WindowScaleState where
  status : StatusMap
  weight : Dec
  unit : Units
  resolution : Dec
  maxlen : Nat
  readings : List (List Char)
  published : Option Published
deriving DecidableEq

/-- SerialScale._update_memcache for the deque-based scales. -/
def windowPublish (st : WindowScaleState) : WindowScaleState :=
  { st with published := some ⟨st.status, st.weight, st.unit, st.resolution,
      st.status = StatusMap.STABLE⟩ }

/-- CreedmoorScale.unit_map. -/
def creedmoorUnitMap (s : List Char) : Option Units :=
  if s = ['G', 'N'] then some .GRAINS
  else if s = ['g'] then some .GRAMS
  else none

/-- CreedmoorScale.resolution_map: 0.01 gr, 0.0001 g. -/
def creedmoorResolutionMap : Units → Dec
  | .GRAINS => ⟨false, [1], -2⟩
  | .GRAMS => ⟨false, [1], -4⟩

/-- CreedmoorScale._stable_unstable: push the line, classify, weight from
line[0:8], unit from line[9:11] (no strip). -/
def creedmoorStableUnstable (st0 : WindowScaleState) (line : List Char) :
    Except (PyErr × WindowScaleState) WindowScaleState :=
  let rs := dequeAppend st0.maxlen st0.readings line
  let st1 := { st0 with readings := rs, status := check_stability st0.maxlen rs }
  match pyDecimalParse (pySlice 0 8 line) with
  | none => .error (.invalidOperation, st1)
  | some w =>
    let st2 := { st1 with weight := w }
    match creedmoorUnitMap (pySlice 9 11 line) with
    | none => .error (.keyError, st2)
    | some u =>
      .ok (windowPublish { st2 with unit := u, resolution := creedmoorResolutionMap u })

/-- CreedmoorScale.update: rstrip b'\r\n', decode (decode errors caught),
dispatch on the sign character line[0:1]. -/
def creedmoorUpdate (st : WindowScaleState) (raw : List Nat) :
    Except (PyErr × WindowScaleState) WindowScaleState :=
  match utf8Decode (bytesRStripCRLF raw) with
  | none => .ok st
  | some line =>
    let pfx := pySlice 0 1 line
    if pfx = ['+'] ∨ pfx = ['-'] then creedmoorStableUnstable st line
    else .ok st

/-- USSolidScale.unit_map. -/
def ussolidUnitMap (s : List Char) : Option Units :=
  if s = ['g', 'n'] then some .GRAINS
  else if s = ['g'] then some .GRAMS
  else none

/-- USSolidScale.resolution_map: 0.001 for both units. -/
def ussolidResolutionMap : Units → Dec
  | .GRAINS => ⟨false, [1], -3⟩
  | .GRAMS => ⟨false, [1], -3⟩

/-- USSolidScale._stable_unstable: push the line, classify, weight from
line[0:9] with spaces removed, unit from line[9:11].strip(). -/
def ussolidStableUnstable (st0 : WindowScaleState) (line : List Char) :
    Except (PyErr × WindowScaleState) WindowScaleState :=
  let rs := dequeAppend st0.maxlen st0.readings line
  let st1 := { st0 with readings := rs, status := check_stability st0.maxlen rs }
  match pyDecimalParse ((pySlice 0 9 line).filter (· ≠ ' ')) with
  | none => .error (.invalidOperation, st1)
  | some w =>
    let st2 := { st1 with weight := w }
    match ussolidUnitMap (strStrip (pySlice 9 11 line)) with
    | none => .error (.keyError, st2)
    | some u =>
      .ok (windowPublish { st2 with unit := u, resolution := ussolidResolutionMap u })

/-- USSolidScale.update: rstrip b'\r\n', decode (decode errors caught),
dispatch on the sign character line[0:1]. -/
def ussolidUpdate (st : WindowScaleState) (raw : List Nat) :
    Except (PyErr × WindowScaleState) WindowScaleState :=
  match utf8Decode (bytesRStripCRLF raw) with
  | none => .ok st
  | some line =>
    let pfx := pySlice 0 1 line
    if pfx = ['+'] ∨ pfx = ['-'] then ussolidStableUnstable st line
    else .ok st

/-- The canonical fields of a successful AND update, for stating decoder
exactness: (weight value, unit, resolution, status). -/
def andResultFields (e : Except (PyErr × ANDState) ANDState) :
    Option (ℚ × Units × Dec × StatusMap) :=
  match e with
  | .ok s => some (s.weight.toRat, s.unit, s.resolution, s.status)
  | .error _ => none

/-- The canonical fields of a successful deque-scale update. -/
def windowResultFields (e : Except (PyErr × WindowScaleState) WindowScaleState) :
    Option (ℚ × Units × Dec) :=
  match e with
  | .ok s => some (s.weight.toRat, s.unit, s.resolution)
  | .error _ => none

/-! ## Motor (trickler/motors.py) -/

/-- Python int() on a real value: truncation toward zero. -/
def pyInt (q : ℚ) : Int := if q < 0 then ⌈q⌉ else ⌊q⌋

/-- A TricklerMotor instance: configured duty bounds (0-100 scale), the
PWM output value (gpiozero PWMOutputDevice.value, a 0-1 fraction) and the
last speed published to memcache. -/
structure TricklerMotor where
  min_pwm : ℚ
  max_pwm : ℚ
  pwmValue : ℚ
  published : Option ℚ
deriving DecidableEq

/-- TricklerMotor.set_speed: rejected with only a log line when speed is
outside [0, 1]; otherwise the duty cycle is applied and the realized speed
(self.speed, read back from the PWM device) is published. -/
def TricklerMotor.set_speed (m : TricklerMotor) (speed : ℚ) : TricklerMotor :=
  if 0 ≤ speed ∧ speed ≤ 1 then { m with pwmValue := speed, published := some speed }
  else m

/-- TricklerMotor.update: target_pwm = max(min(int(target_pwm), max_pwm),
min_pwm), then set_speed(target_pwm / 100). -/
def TricklerMotor.update (m : TricklerMotor) (target : ℚ) : TricklerMotor :=
  let t : ℚ := max (min ((pyInt target : Int) : ℚ) m.max_pwm) m.min_pwm
  m.set_speed (t / 100)

/-- TricklerMotor.off. -/
def TricklerMotor.off (m : TricklerMotor) : TricklerMotor := m.set_speed 0

/-! ## Byte-encoding helpers (trickler/helpers.py) -/

/-- A Python bytes-like object, keeping track of whether it is an
array.array('B') (as built by the helpers) or a bytes object: the two do
not expose the same methods. -/
inductive PyBuf where
  | arr (data : List Nat)
  | bytes (data : List Nat)
deriving DecidableEq

def PyBuf.data : PyBuf → List Nat
  | .arr d => d
  | .bytes d => d

/-- struct.pack_into("<B", ...): one unsigned byte; struct.error if the
value does not fit. -/
def structPackB (v : Nat) : Except PyErr (List Nat) :=
  if v < 256 then .ok [v] else .error .structError

/-- helpers.bool_to_bytes: a one-byte array.array('B'). -/
def bool_to_bytes (b : Bool) : PyBuf := .arr [if b then 1 else 0]

/-- helpers.bytes_to_bool: bool(data_bytes[0]); data_bytes[0] raises
IndexError on an empty buffer. -/
def bytes_to_bool (p : PyBuf) : Except PyErr Bool :=
  match p.data with
  | [] => .error .indexError
  | v :: _ => .ok (v ≠ 0)

/-- helpers.str_to_bytes: UTF-8 encode into an array.array('B'). -/
def str_to_bytes (s : List Char) : PyBuf := .arr (utf8Encode s)

/-- helpers.bytes_to_str: data_bytes.decode('utf-8').  array.array has no
decode method, so an array argument raises AttributeError; a bytes
argument decodes (strict UTF-8). -/
def bytes_to_str (p : PyBuf) : Except PyErr (List Char) :=
  match p with
  | .arr _ => .error .attributeError
  | .bytes d =>
    match utf8Decode d with
    | some s => .ok s
    | none => .error .unicodeDecodeError

/-- helpers.decimal_to_bytes: str(value) then str_to_bytes. -/
def decimal_to_bytes (d : Dec) : PyBuf := str_to_bytes (decToString d)

/-- helpers.bytes_to_decimal: bytes_to_str then decimal.Decimal. -/
def bytes_to_decimal (p : PyBuf) : Except PyErr Dec :=
  match bytes_to_str p with
  | .error e => .error e
  | .ok s =>
    match pyDecimalParse s with
    | some d => .ok d
    | none => .error .invalidOperation

/-- helpers.enum_to_bytes: struct.pack_into("<B", ..., value_enum.value);
an enum member is identified with its value. -/
def enum_to_bytes (v : Nat) : Except PyErr PyBuf :=
  match structPackB v with
  | .ok bs => .ok (.arr bs)
  | .error e => .error e

/-- helpers.bytes_to_enum: enum_cls(data_bytes[0]); a Python Enum lookup
by value returns the member when the value belongs to the class and raises
ValueError otherwise (the class is modelled by its list of member
values). -/
def bytes_to_enum (cls : List Nat) (p : PyBuf) : Except PyErr Nat :=
  match p.data with
  | [] => .error .indexError
  | v :: _ => if v ∈ cls then .ok v else .error .valueError

/-! ## PID controller

Modelled from the spec: PID.py is imported by trickler/main.py but is not
part of src/.  Per the spec (sections 3 and 4.4), the state is the
coefficients, the setpoint, the integral accumulator and the
previous-error memory plus the computed output; update() accumulates
error * dt, takes a derivative guarded against non-positive elapsed time,
and clamps the output to a configured range; clear() zeroes the integral
accumulator and previous-error memory but preserves the coefficients and
the setpoint. -/
structure PIDState where
  Kp : ℚ
  Ki : ℚ
  Kd : ℚ
  SetPoint : ℚ
  ITerm : ℚ
  lastError : ℚ
  outBound : ℚ
  output : ℚ
deriving DecidableEq

/-- Modelled from the spec: PID.clear() (see section 4.4; PID.py is not
under src/). -/
def pidClear (p : PIDState) : PIDState :=
  { p with ITerm := 0, lastError := 0, output := 0 }

/-- Modelled from the spec: PID.update(process_variable) with elapsed time
dt (see section 4.4; PID.py is not under src/). -/
def pidUpdate (p : PIDState) (pv : ℚ) (dt : ℚ) : PIDState :=
  let err := p.SetPoint - pv
  let dTerm := if dt ≤ 0 then 0 else (err - p.lastError) / dt
  let iTerm := p.ITerm + err * dt
  let raw := p.Kp * err + p.Ki * iTerm + p.Kd * dTerm
  { p with
    ITerm := iTerm
    lastError := err
    output := max (min raw p.outBound) (-p.outBound) }

/-! ## Trickler control loops (trickler/main.py) -/

/-- Values captured by trickler_loop for the whole dispensing run. -/
structure LoopCtx where
  targetWeight : ℚ
  targetUnit : Units
deriving DecidableEq

/-- What one iteration of the inner loop observes: the auto_mode key read
from memcache at the top of the body, and the scale state right after
scale.update(), plus the elapsed time fed to the PID controller. -/
structure LoopIterIn where
  autoMode : Bool
  weight : ℚ
  unit : Units
  dt : ℚ
deriving DecidableEq

/-- The mutable state the dispensing loop drives. -/
structure LoopState where
  motor : TricklerMotor
  pid : PIDState
deriving DecidableEq

inductive LoopStepRes where
  | exit (st : LoopState)
  | cont (st : LoopState)
deriving DecidableEq

/-- One iteration of the body of trickler_loop, in source order: break if
auto mode is off; scale.update(); break if the scale unit differs from the
target unit; break if the weight is negative (pan removed); break once
remainder = target_weight - scale.weight <= 0; otherwise run the PID
controller on the weight percentage and drive the motor with its
output. -/
def tricklerStep (ctx : LoopCtx) (st : LoopState) (i : LoopIterIn) : LoopStepRes :=
  if ¬ i.autoMode then .exit st
  else if i.unit ≠ ctx.targetUnit then .exit st
  else if i.weight < 0 then .exit st
  else if ctx.targetWeight - i.weight ≤ 0 then .exit st
  else
    let pid' := pidUpdate st.pid (i.weight / ctx.targetWeight * 100) i.dt
    .cont { motor := st.motor.update pid'.output, pid := pid' }

/-- The clean-up block after the while loop of trickler_loop: motor off
and PID cleared. -/
def tricklerCleanup (st : LoopState) : LoopState :=
  { motor := st.motor.off, pid := pidClear st.pid }

/-- trickler_loop: iterate the body over the successive memcache/scale
observations; some final state is returned when a break fired (followed by
the unconditional clean-up block), none means the input trace ended with
the loop still dispensing. -/
def trickler_loop (ctx : LoopCtx) : List LoopIterIn → LoopState → Option LoopState
  | [], _ => none
  | i :: rest, st =>
    match tricklerStep ctx st i with
    | .exit st' => some (tricklerCleanup st')
    | .cont st' => trickler_loop ctx rest st'

/-- What one iteration of the outer loop of main() reads from memcache. -/
structure MainIn where
  autoMode : Bool
  targetWeight : ℚ
  targetUnit : Units
deriving DecidableEq

/-- The scale fields the outer loop inspects. -/
structure ScaleView where
  weight : ℚ
  unit : Units
  is_stable : Bool
deriving DecidableEq

/-- The externally visible actions of one outer-loop iteration. -/
structure MainStep where
  changedUnit : Bool
  armDelay : Option Nat
  dispense : Bool
deriving DecidableEq

/-- The scale state the readiness check of main() examines: when the
target unit differs from the scale unit, scale.change_unit() runs first
(it re-reads the scale, yielding scAfterChange); otherwise the state from
the top-of-loop scale.update() is used directly. -/
def mainCheckedScale (i : MainIn) (sc scAfterChange : ScaleView) : ScaleView :=
  if i.targetUnit ≠ sc.unit then scAfterChange else sc

/-- One iteration of the outer loop of main(): reconcile units, then start
dispensing (after a fixed time.sleep(1) arm delay) iff the pan is present,
the weight is under target, the units match, the scale is stable and auto
mode is on. -/
def mainIter (i : MainIn) (sc scAfterChange : ScaleView) : MainStep :=
  let s := mainCheckedScale i sc scAfterChange
  if 0 ≤ s.weight ∧ s.weight < i.targetWeight ∧ s.unit = i.targetUnit ∧
      s.is_stable ∧ i.autoMode then
    { changedUnit := i.targetUnit ≠ sc.unit, armDelay := some 1, dispense := true }
  else
    { changedUnit := i.targetUnit ≠ sc.unit, armDelay := none, dispense := false }

/-! ## REST settings controller
(rest_api/generated/openapi_server/controllers/default_controller.py) -/

/-- The three Shared-State Channel keys the settings API touches; a none
field means the key was never set in memcache. -/
structure SettingsStore where
  auto_mode : Option Bool
  target_weight : Option Dec
  target_unit : Option Units
deriving DecidableEq

/-- A deserialized settings write request (openapi Setting model): absent
request fields deserialize to None. -/
structure Setting where
  auto_mode : Option Bool
  target_weight : Option Dec
  target_unit : Option (List Char)
deriving DecidableEq

/-- Python truthiness of an optional bool: None and False are falsy. -/
def truthyBool : Option Bool → Bool
  | some true => true
  | _ => false

/-- Python truthiness of an optional Decimal: None and any zero-valued
decimal are falsy. -/
def truthyDec : Option Dec → Bool
  | some d => d.toRat ≠ 0
  | none => false

/-- The module-level UNIT_MAP of the controller. -/
def controllerUnitMap (s : List Char) : Option Units :=
  if s = ['G', 'N'] then some .GRAINS
  else if s = ['g'] then some .GRAMS
  else none

/-- The controller module binds MC_CLIENT, AUTO_MODE, TARGET_UNIT and
TARGET_WEIGHT, but no name called memcache: this is the (empty) binding
the set calls of update_settings look up. -/
def moduleBindsMemcacheName : Bool := false

/-- The body update_settings spells, with the set calls bound to the
memcache client its read calls use (MC_CLIENT): each key is written with
the request value when that value is truthy, falling back to the cached
value (for target_unit: falling back whenever the request token is not a
key of UNIT_MAP, which covers None). -/
def update_settings_sets (store : SettingsStore) (s : Setting) : SettingsStore :=
  { auto_mode := if truthyBool s.auto_mode then s.auto_mode else store.auto_mode,
    target_weight := if truthyDec s.target_weight then s.target_weight else store.target_weight,
    target_unit :=
      match s.target_unit.bind controllerUnitMap with
      | some u => some u
      | none => store.target_unit }

/-- update_settings as written: every set call evaluates the expression
memcache.set(...), and the module has no binding called memcache (reads
use MC_CLIENT), so the first statement raises NameError before any key is
written. -/
def update_settings (store : SettingsStore) (s : Setting) :
    Except PyErr SettingsStore :=
  if moduleBindsMemcacheName then .ok (update_settings_sets store s)
  else .error .nameError

/-! ## General lemmas -/

theorem dropWhile_eq_self_of_forall {p : α → Bool} {l : List α}
    (h : ∀ c ∈ l, p c = false) : l.dropWhile p = l := by
  cases l with
  | nil => rfl
  | cons c t =>
    rw [List.dropWhile_cons, h c (List.mem_cons_self c t)]
    simp

theorem strStrip_eq_self {l : List Char} (h : ∀ c ∈ l, isPyWsChar c = false) :
    strStrip l = l := by
  unfold strStrip
  rw [dropWhile_eq_self_of_forall h, dropWhile_eq_self_of_forall, List.reverse_reverse]
  intro c hc
  exact h c (List.mem_reverse.mp hc)

theorem splitFirst_all_false {p : Char → Bool} {l : List Char}
    (h : ∀ c ∈ l, p c = false) : splitFirst p l = (l, none) := by
  induction l with
  | nil => rfl
  | cons c t ih =>
    unfold splitFirst
    rw [h c (List.mem_cons_self c t)]
    simp [ih fun x hx => h x (List.mem_cons_of_mem c hx)]

theorem splitFirst_append {p : Char → Bool} {a : List Char} {c : Char} (b : List Char)
    (ha : ∀ x ∈ a, p x = false) (hc : p c = true) :
    splitFirst p (a ++ c :: b) = (a, some b) := by
  induction a with
  | nil => simp [splitFirst, hc]
  | cons x t ih =>
    have hx : p x = false := ha x (List.mem_cons_self x t)
    rw [List.cons_append]
    simp [splitFirst, hx, ih fun y hy => ha y (List.mem_cons_of_mem x hy)]

theorem digitChar_facts : ∀ k < 10,
    isDigitCh (Char.ofNat (48 + k)) = true ∧
    digitVal (Char.ofNat (48 + k)) = k ∧
    isPyWsChar (Char.ofNat (48 + k)) = false ∧
    (Char.ofNat (48 + k)).toNat < 128 ∧
    (Char.ofNat (48 + k) = '.') = False ∧
    (Char.ofNat (48 + k) = 'e') = False ∧
    (Char.ofNat (48 + k) = 'E') = False ∧
    (Char.ofNat (48 + k) = '+') = False ∧
    (Char.ofNat (48 + k) = '-') = False := by decide

theorem charsToDigits_digitsToChars {ds : List Nat} (h : ∀ k ∈ ds, k < 10) :
    charsToDigits (digitsToChars ds) = some ds := by
  unfold charsToDigits
  have hall : (digitsToChars ds).all isDigitCh = true := by
    rw [List.all_eq_true]
    intro c hc
    obtain ⟨k, hk, rfl⟩ := List.mem_map.mp hc
    exact (digitChar_facts k (h k hk)).1
  rw [hall]
  simp only [if_true, digitsToChars, List.map_map, Option.some.injEq]
  conv_rhs => rw [(List.map_id ds).symm]
  apply List.map_congr_left
  intro k hk
  exact (digitChar_facts k (h k hk)).2.1

theorem natOfDigits_append (a b : List Nat) :
    natOfDigits (a ++ b) = b.foldl (fun x k => 10 * x + k) (natOfDigits a) := by
  unfold natOfDigits
  rw [List.foldl_append]

theorem natOfDigits_all_zero {l : List Nat} (h : ∀ k ∈ l, k = 0) :
    natOfDigits l = 0 := by
  induction l with
  | nil => rfl
  | cons c t ih =>
    have hc : c = 0 := h c (List.mem_cons_self c t)
    have : natOfDigits (c :: t) = natOfDigits t := by
      unfold natOfDigits
      simp [hc]
    rw [this]
    exact ih fun x hx => h x (List.mem_cons_of_mem c hx)

theorem natOfDigits_cons_zero (t : List Nat) : natOfDigits (0 :: t) = natOfDigits t := by
  unfold natOfDigits
  rw [List.foldl_cons]

theorem natOfDigits_dropZeros (l : List Nat) :
    natOfDigits (l.dropWhile (· = 0)) = natOfDigits l := by
  induction l with
  | nil => rfl
  | cons c t ih =>
    rw [List.dropWhile_cons]
    by_cases hc : c = 0
    · subst hc
      rw [if_pos (by norm_num), ih, natOfDigits_cons_zero]
    · rw [if_neg (by simp [hc])]

theorem natOfDigits_stripZeros (l : List Nat) :
    natOfDigits (stripZeros l) = natOfDigits l := by
  unfold stripZeros
  by_cases hd : l.dropWhile (· = 0) = []
  · rw [if_pos hd]
    have hz : ∀ k ∈ l, k = 0 := by
      intro k hk
      have := List.dropWhile_eq_nil_iff.mp hd k hk
      simpa using this
    rw [natOfDigits_all_zero hz]
    rfl
  · rw [if_neg hd]
    exact natOfDigits_dropZeros l

theorem stripZeros_valid {ds : List Nat} (hne : ds ≠ [])
    (hl : ds.head? ≠ some 0 ∨ ds = [0]) : stripZeros ds = ds := by
  rcases hl with h | h
  · obtain ⟨c, t, rfl⟩ := List.exists_cons_of_ne_nil hne
    have hc : ¬ c = 0 := by
      simp only [List.head?_cons, ne_eq, Option.some.injEq] at h
      exact h
    have hdw : (c :: t).dropWhile (· = 0) = c :: t := by
      rw [List.dropWhile_cons, if_neg (by simp [hc])]
    unfold stripZeros
    rw [hdw, if_neg (by simp)]
  · rw [h]
    rfl

theorem stripZeros_replicate_append (k : Nat) (ds : List Nat) :
    stripZeros (List.replicate k 0 ++ ds) = stripZeros ds := by
  induction k with
  | zero => rfl
  | succ n ih =>
    rw [List.replicate_succ, List.cons_append]
    have hdw : (0 :: (List.replicate n 0 ++ ds)).dropWhile (· = 0) =
        (List.replicate n 0 ++ ds).dropWhile (· = 0) := by
      rw [List.dropWhile_cons, if_pos (by norm_num)]
    unfold stripZeros
    unfold stripZeros at ih
    rw [hdw]
    exact ih

/-! ## Claim theorems -/

/-- Claim C7: TricklerMotor.set_speed with a speed strictly outside [0, 1]
neither raises nor changes anything (realized speed keeps its prior value,
nothing is published); a speed within [0, 1] is applied to the PWM device
and the realized speed is published to the shared-state channel. -/
theorem set_speed_contract (m : TricklerMotor) (v : ℚ) :
    ((v < 0 ∨ 1 < v) → m.set_speed v = m) ∧
    (0 ≤ v → v ≤ 1 →
      (m.set_speed v).pwmValue = v ∧ (m.set_speed v).published = some v) := by
  constructor
  · intro h
    unfold TricklerMotor.set_speed
    rw [if_neg]
    rintro ⟨h0, h1⟩
    rcases h with h | h
    · exact absurd h0 (not_le.mpr h)
    · exact absurd h1 (not_le.mpr h)
  · intro h0 h1
    unfold TricklerMotor.set_speed
    rw [if_pos ⟨h0, h1⟩]
    exact ⟨rfl, rfl⟩

/-- Witness for C7 at concrete inputs: speed 2 is rejected on a motor
whose PWM sits at 1/2; speed 3/4 is applied and published. -/
theorem set_speed_contract_witness :
    (TricklerMotor.set_speed ⟨10, 90, 1/2, none⟩ 2 = ⟨10, 90, 1/2, none⟩) ∧
    ((TricklerMotor.set_speed ⟨10, 90, 1/2, none⟩ (3/4)).pwmValue = 3/4 ∧
      (TricklerMotor.set_speed ⟨10, 90, 1/2, none⟩ (3/4)).published = some (3/4)) :=
  ⟨(set_speed_contract ⟨10, 90, 1/2, none⟩ 2).1 (Or.inr (by norm_num)),
    (set_speed_contract ⟨10, 90, 1/2, none⟩ (3/4)).2 (by norm_num) (by norm_num)⟩

/-- Counterexample to claim C5: the code truncates the target to an
integer with int() before clamping, so for the non-integer target 50.9 on
bounds [0, 100] the applied duty is 50 (fraction 0.5), not the claimed
clamped-value-divided-by-100 (0.509). -/
theorem c5_counterexample :
    ¬ ((TricklerMotor.mk 0 100 0 none).update (509 / 10)).pwmValue =
      max (min ((509 : ℚ) / 10) (TricklerMotor.mk 0 100 0 none).max_pwm)
        (TricklerMotor.mk 0 100 0 none).min_pwm / 100 := by
  have hfl : pyInt ((509 : ℚ) / 10) = 50 := by
    rw [pyInt, if_neg (by norm_num), Int.floor_eq_iff]
    · norm_num
  intro h
  simp only [TricklerMotor.update, TricklerMotor.set_speed, hfl] at h
  rw [min_eq_left (by norm_num : ((50 : ℤ) : ℚ) ≤ 100),
    max_eq_left (by norm_num : (0 : ℚ) ≤ ((50 : ℤ) : ℚ)),
    if_pos (by constructor <;> norm_num)] at h
  rw [min_eq_left (by norm_num : (509 : ℚ) / 10 ≤ 100),
    max_eq_left (by norm_num : (0 : ℚ) ≤ 509 / 10)] at h
  norm_num at h

/-- Claim C5 as amended: update truncates the target toward zero with
int(), clamps the truncated value to [min_pwm, max_pwm] and applies it via
set_speed divided by 100; whenever the configured bounds satisfy
0 ≤ min_pwm ≤ max_pwm ≤ 100, the resulting duty (on the 0-100 scale) lies
within [min_pwm, max_pwm], including for targets below the minimum or
above the maximum. -/
theorem motor_update_clamped (m : TricklerMotor) (t : ℚ)
    (h0 : 0 ≤ m.min_pwm) (h1 : m.min_pwm ≤ m.max_pwm) (h2 : m.max_pwm ≤ 100) :
    m.update t = m.set_speed (max (min ((pyInt t : Int) : ℚ) m.max_pwm) m.min_pwm / 100) ∧
    m.min_pwm ≤ 100 * (m.update t).pwmValue ∧
    100 * (m.update t).pwmValue ≤ m.max_pwm := by
  have hlo : m.min_pwm ≤ max (min ((pyInt t : Int) : ℚ) m.max_pwm) m.min_pwm :=
    le_max_right _ _
  have hhi : max (min ((pyInt t : Int) : ℚ) m.max_pwm) m.min_pwm ≤ m.max_pwm :=
    max_le (min_le_right _ _) h1
  have happ : (m.update t).pwmValue =
      max (min ((pyInt t : Int) : ℚ) m.max_pwm) m.min_pwm / 100 := by
    unfold TricklerMotor.update TricklerMotor.set_speed
    rw [if_pos ⟨div_nonneg (le_trans h0 hlo) (by norm_num), by
      rw [div_le_one (by norm_num)]
      linarith⟩]
  have hdiv : 100 * (max (min ((pyInt t : Int) : ℚ) m.max_pwm) m.min_pwm / 100) =
      max (min ((pyInt t : Int) : ℚ) m.max_pwm) m.min_pwm := by
    ring
  refine ⟨rfl, ?_, ?_⟩ <;> rw [happ, hdiv]
  · exact hlo
  · exact hhi

/-- Witness for the amended C5 on bounds [10, 90]: a target of 200 (above
max) and the fractional target 50.9 both land within the bounds. -/
theorem motor_update_clamped_witness :
    (TricklerMotor.mk 10 90 0 none).update 200 =
      (TricklerMotor.mk 10 90 0 none).set_speed
        (max (min ((pyInt 200 : Int) : ℚ) 90) 10 / 100) ∧
    10 ≤ 100 * ((TricklerMotor.mk 10 90 0 none).update 200).pwmValue ∧
    100 * ((TricklerMotor.mk 10 90 0 none).update 200).pwmValue ≤ 90 :=
  motor_update_clamped (TricklerMotor.mk 10 90 0 none) 200
    (by norm_num) (by norm_num) (by norm_num)

/-- Claim C2: one iteration of the outer loop of main() starts dispensing
iff, on the scale state examined at the readiness check (after any unit
reconciliation), the pan is present (weight ≥ 0), the weight is under the
target, the unit matches the target unit, the scale is stable and auto
mode is on; and entering dispensing always inserts the fixed one-second
arm delay first. -/
theorem main_arm_iff (i : MainIn) (sc scAfterChange : ScaleView) :
    ((mainIter i sc scAfterChange).dispense = true ↔
      (0 ≤ (mainCheckedScale i sc scAfterChange).weight ∧
       (mainCheckedScale i sc scAfterChange).weight < i.targetWeight ∧
       (mainCheckedScale i sc scAfterChange).unit = i.targetUnit ∧
       (mainCheckedScale i sc scAfterChange).is_stable = true ∧
       i.autoMode = true)) ∧
    ((mainIter i sc scAfterChange).dispense = true →
      (mainIter i sc scAfterChange).armDelay = some 1) := by
  simp only [mainIter]
  split
  · next h => simp_all
  · next h => simp_all

/-- Witness for C2: with target 10 GN, auto mode on and a stable scale
reading 4 GN, the loop arms (delay 1 s) and dispenses. -/
theorem main_arm_iff_witness :
    (mainIter ⟨true, 10, .GRAINS⟩ ⟨4, .GRAINS, true⟩ ⟨4, .GRAINS, true⟩).dispense = true ∧
    (mainIter ⟨true, 10, .GRAINS⟩ ⟨4, .GRAINS, true⟩ ⟨4, .GRAINS, true⟩).armDelay = some 1 := by
  have h := main_arm_iff ⟨true, 10, .GRAINS⟩ ⟨4, .GRAINS, true⟩ ⟨4, .GRAINS, true⟩
  have hd : (mainIter ⟨true, 10, .GRAINS⟩ ⟨4, .GRAINS, true⟩ ⟨4, .GRAINS, true⟩).dispense = true :=
    h.1.mpr (by refine ⟨?_, ?_, ?_, ?_, rfl⟩ <;> norm_num [mainCheckedScale])
  exact ⟨hd, h.2 hd⟩

/-- Claim C9: an AND scale line recognized as overload (prefix OL) or
error (prefix EC) updates only the status of the canonical reading (and
republishes it); weight, unit and resolution are carried over unchanged
from the previous canonical reading. -/
theorem and_overload_error_frame (st : ANDState) (raw : List Nat) (line : List Char)
    (hdec : utf8Decode (bytesStrip raw) = some line) :
    (pySlice 0 2 line = ['O', 'L'] →
      andUpdate st raw = .ok { st with
        status := .OVERLOAD
        published := some ⟨.OVERLOAD, st.weight, st.unit, st.resolution, false⟩ }) ∧
    (pySlice 0 2 line = ['E', 'C'] →
      andUpdate st raw = .ok { st with
        status := .ERROR
        published := some ⟨.ERROR, st.weight, st.unit, st.resolution, false⟩ }) := by
  constructor <;> intro hp <;>
  · unfold andUpdate
    rw [hdec]
    simp [hp, andPublish]

/-- Witness for C9: a concrete overload line b"OL" on a scale previously
reading a stable 0.05 GN. -/
theorem and_overload_error_frame_witness :
    andUpdate ⟨.STABLE, ⟨false, [5], -2⟩, .GRAINS, ⟨false, [2], -2⟩, none⟩ [79, 76] =
      .ok ⟨.OVERLOAD, ⟨false, [5], -2⟩, .GRAINS, ⟨false, [2], -2⟩,
        some ⟨.OVERLOAD, ⟨false, [5], -2⟩, .GRAINS, ⟨false, [2], -2⟩, false⟩⟩ :=
  (and_overload_error_frame ⟨.STABLE, ⟨false, [5], -2⟩, .GRAINS, ⟨false, [2], -2⟩, none⟩
    [79, 76] ['O', 'L'] (by decide)).1 (by decide)

/-! ## Stability window lemmas -/

theorem dedup_length_one_iff {α : Type} [DecidableEq α] (l : List α) :
    l.dedup.length = 1 ↔ l ≠ [] ∧ ∀ a ∈ l, ∀ b ∈ l, a = b := by
  constructor
  · intro h
    obtain ⟨u, hu⟩ := List.length_eq_one.mp h
    constructor
    · intro hnil
      subst hnil
      simp at hu
    · intro a ha b hb
      have ha' : a ∈ l.dedup := List.mem_dedup.mpr ha
      have hb' : b ∈ l.dedup := List.mem_dedup.mpr hb
      rw [hu] at ha' hb'
      simp at ha' hb'
      rw [ha', hb']
  · rintro ⟨hne, hall⟩
    obtain ⟨c, t, rfl⟩ := List.exists_cons_of_ne_nil hne
    have hmem : ∀ x ∈ (c :: t).dedup, x = c := fun x hx =>
      hall x (List.mem_dedup.mp hx) c (List.mem_cons_self c t)
    have hc : c ∈ (c :: t).dedup := List.mem_dedup.mpr (List.mem_cons_self c t)
    have hnodup := List.nodup_dedup (c :: t)
    rcases hd : (c :: t).dedup with _ | ⟨u, t2⟩
    · rw [hd] at hc
      simp at hc
    · rcases t2 with _ | ⟨v, t3⟩
      · simp
      · exfalso
        rw [hd] at hnodup hmem
        have hu : u = c := hmem u (by simp)
        have hv : v = c := hmem v (by simp)
        rw [List.nodup_cons] at hnodup
        exact hnodup.1 (by rw [hu, ← hv]; exact List.mem_cons_self v t3)

theorem takeRight_append_absorb (n : Nat) (a b : List α) :
    takeRight n (takeRight n a ++ b) = takeRight n (a ++ b) := by
  unfold takeRight
  rw [← List.drop_append_of_le_length (by omega : a.length - n ≤ a.length)]
  rw [List.drop_drop, List.length_drop, List.length_append]
  congr 1
  omega

theorem dequeAppend_length_le (m : Nat) (rs : List (List Char)) (x : List Char)
    (h : rs.length ≤ m) : (dequeAppend m rs x).length ≤ m := by
  unfold dequeAppend
  rw [List.length_drop, List.length_append]
  simp
  omega

theorem feedLines_eq_takeRight (N : Nat) (rs ls : List (List Char))
    (hrs : rs.length ≤ N) : feedLines N rs ls = takeRight N (rs ++ ls) := by
  induction ls generalizing rs with
  | nil =>
    unfold feedLines takeRight
    rw [List.foldl_nil, List.append_nil]
    have : rs.length - N = 0 := by omega
    rw [this, List.drop_zero]
  | cons y t ih =>
    unfold feedLines at *
    rw [List.foldl_cons]
    rw [ih (dequeAppend N rs y) (dequeAppend_length_le N rs y hrs)]
    have hd : dequeAppend N rs y = takeRight N (rs ++ [y]) := rfl
    rw [hd, takeRight_append_absorb, List.append_assoc]
    rfl

theorem takeRight_append_replicate (N : Nat) (rs : List (List Char)) (x : List Char) :
    takeRight N (rs ++ List.replicate N x) = List.replicate N x := by
  unfold takeRight
  rw [List.length_append, List.length_replicate]
  have : rs.length + N - N = rs.length := by omega
  rw [this, List.drop_left]

/-- Counterexample to claim C4: for a window of capacity N = 1, changing
the one line among the last N yields a full window of identical entries,
so the next classification is STABLE, not UNSTABLE as the claim states. -/
theorem c4_counterexample :
    check_stability 1 (dequeAppend 1 [['a']] ['b']) = .STABLE := by decide

/-- Claim C4 as amended: classification is STABLE iff the window is full,
nonempty and all entries identical (for capacity 0 the classification is
never STABLE); feeding N identical lines yields STABLE whenever N ≥ 1; and
a full window whose last N lines contain two different entries classifies
UNSTABLE whenever N ≥ 2 (for N = 1 the changed line alone refills the
window, so it classifies STABLE). -/
theorem stability_window_contract (N : Nat) :
    (∀ rs : List (List Char), check_stability N rs = .STABLE ↔
      (rs.length = N ∧ rs ≠ [] ∧ ∀ a ∈ rs, ∀ b ∈ rs, a = b)) ∧
    (∀ (rs : List (List Char)) (x : List Char), rs.length ≤ N → 1 ≤ N →
      check_stability N (feedLines N rs (List.replicate N x)) = .STABLE) ∧
    (∀ (rs : List (List Char)) (x y : List Char), rs.length = N → 2 ≤ N →
      x ∈ rs → y ∈ rs → x ≠ y → check_stability N rs = .UNSTABLE) := by
  have hiff : ∀ rs : List (List Char), check_stability N rs = .STABLE ↔
      (rs.length = N ∧ rs ≠ [] ∧ ∀ a ∈ rs, ∀ b ∈ rs, a = b) := by
    intro rs
    rw [check_stability]
    by_cases hc : rs.length = N ∧ rs.dedup.length = 1
    · rw [if_pos hc]
      have h2 := (dedup_length_one_iff rs).mp hc.2
      exact iff_of_true rfl ⟨hc.1, h2.1, h2.2⟩
    · rw [if_neg hc]
      constructor
      · intro h
        exact absurd h (by decide)
      · rintro ⟨h1, h2, h3⟩
        exact absurd ⟨h1, (dedup_length_one_iff rs).mpr ⟨h2, h3⟩⟩ hc
  refine ⟨hiff, ?_, ?_⟩
  · intro rs x hrs hN
    rw [feedLines_eq_takeRight N rs _ hrs, takeRight_append_replicate]
    refine (hiff _).mpr ⟨List.length_replicate N x, ?_, ?_⟩
    · simp
      omega
    · intro a ha b hb
      rw [List.eq_of_mem_replicate ha, List.eq_of_mem_replicate hb]
  · intro rs x y hlen hN hx hy hxy
    rw [check_stability, if_neg]
    rintro ⟨-, hd⟩
    exact hxy (((dedup_length_one_iff rs).mp hd).2 x hx y hy)

/-- Witness for the amended C4 at capacity 3: feeding three identical
lines from a junk window yields STABLE, and a full window holding two
different lines classifies UNSTABLE. -/
theorem stability_window_contract_witness :
    check_stability 3 (feedLines 3 [['z']] (List.replicate 3 ['a'])) = .STABLE ∧
    check_stability 3 [['a'], ['b'], ['a']] = .UNSTABLE :=
  ⟨(stability_window_contract 3).2.1 [['z']] ['a'] (by norm_num) (by norm_num),
    (stability_window_contract 3).2.2 [['a'], ['b'], ['a']] ['a'] ['b'] rfl
      (by norm_num) (by simp) (by simp) (by simp)⟩

/-! ## Claims C3, C1, C6 -/

/-- Counterexample to claim C3: ANDScale.update is not raise-free — a line
whose prefix is recognized (here b"STx") but whose weight field is not a
parsable decimal raises decimal.InvalidOperation out of update(), after
the status field was already overwritten (the scale was UNSTABLE, the
error state carries status STABLE). -/
theorem c3_counterexample :
    andUpdate ⟨.UNSTABLE, ⟨false, [0], -2⟩, .GRAINS, ⟨false, [2], -2⟩, none⟩ [83, 84, 120] =
      .error (.invalidOperation,
        ⟨.STABLE, ⟨false, [0], -2⟩, .GRAINS, ⟨false, [2], -2⟩, none⟩) :=
  rfl

/-- Claim C3 as amended: ANDScale.update never raises and leaves the whole
previously published canonical state (status, weight, unit, resolution)
unchanged for every line whose bytes fail UTF-8 decoding and for every
decoded line whose two-character prefix is not in the dispatch table;
lines with a recognized stable/unstable prefix but an unparsable payload
can still raise. -/
theorem and_update_malformed_noop (st : ANDState) (raw : List Nat) :
    (utf8Decode (bytesStrip raw) = none → andUpdate st raw = .ok st) ∧
    (∀ line, utf8Decode (bytesStrip raw) = some line →
      pySlice 0 2 line ∉ andPrefixes → andUpdate st raw = .ok st) := by
  constructor
  · intro h
    unfold andUpdate
    rw [h]
  · intro line h hn
    unfold andUpdate
    rw [h]
    simp only [andPrefixes, List.mem_cons, List.not_mem_nil, or_false, not_or] at hn
    obtain ⟨h1, h2, h3, h4, h5, h6, h7⟩ := hn
    simp [h1, h2, h3, h4, h5, h6, h7]

/-- Witness for the amended C3: the undecodable byte 0xFF and the decoded
but unrecognized line b"XX" both leave the state untouched. -/
theorem and_update_malformed_noop_witness :
    andUpdate ⟨.STABLE, ⟨false, [5], -2⟩, .GRAINS, ⟨false, [2], -2⟩, none⟩ [255] =
      .ok ⟨.STABLE, ⟨false, [5], -2⟩, .GRAINS, ⟨false, [2], -2⟩, none⟩ ∧
    andUpdate ⟨.STABLE, ⟨false, [5], -2⟩, .GRAINS, ⟨false, [2], -2⟩, none⟩ [88, 88] =
      .ok ⟨.STABLE, ⟨false, [5], -2⟩, .GRAINS, ⟨false, [2], -2⟩, none⟩ :=
  ⟨(and_update_malformed_noop _ [255]).1 (by decide),
    (and_update_malformed_noop _ [88, 88]).2 ['X', 'X'] (by decide) (by decide)⟩

/-- Claim C1: whenever the inner dispensing loop returns (and one
iteration breaks exactly when auto mode is off, the scale unit differs
from the target unit, the weight is negative, or the remainder
target_weight - weight is ≤ 0), the clean-up runs unconditionally: the
motor speed is driven to 0 (and published) and the PID memory is cleared.
The hypothesis 0 < target_weight marks the domain on which the loop body
is faithful to the Python (with target 0 the Decimal division in the
tuning-log line would raise before the remainder break). -/
theorem trickler_loop_exit (ctx : LoopCtx) (inputs : List LoopIterIn)
    (st st' : LoopState) (hT : 0 < ctx.targetWeight)
    (h : trickler_loop ctx inputs st = some st') :
    (st'.motor.pwmValue = 0 ∧ st'.motor.published = some 0 ∧
      st'.pid.ITerm = 0 ∧ st'.pid.lastError = 0 ∧ st'.pid.output = 0) ∧
    (∀ (s : LoopState) (i : LoopIterIn),
      (∃ s2, tricklerStep ctx s i = .exit s2) ↔
        (i.autoMode = false ∨ i.unit ≠ ctx.targetUnit ∨ i.weight < 0 ∨
          ctx.targetWeight - i.weight ≤ 0)) := by
  constructor
  · have hoff : ∀ m : TricklerMotor, m.off =
        { m with pwmValue := 0, published := some 0 } := by
      intro m
      unfold TricklerMotor.off TricklerMotor.set_speed
      rw [if_pos ⟨le_refl 0, by norm_num⟩]
    induction inputs generalizing st with
    | nil => simp [trickler_loop] at h
    | cons i rest ih =>
      simp only [trickler_loop] at h
      rcases hstep : tricklerStep ctx st i with s2 | s2 <;> rw [hstep] at h
      · simp only [Option.some.injEq] at h
        subst h
        simp [tricklerCleanup, hoff, pidClear]
      · exact ih s2 h
  · intro s i
    by_cases hA : i.autoMode <;> by_cases hU : i.unit = ctx.targetUnit <;>
      by_cases hW : i.weight < 0 <;> by_cases hR : ctx.targetWeight - i.weight ≤ 0 <;>
      simp [tricklerStep, hA, hU, hW, hR]

/-- Witness for C1: auto mode turned off on the first iteration with
target 10 GN; the loop exits and the clean-up zeroes the motor and the PID
memory. -/
theorem trickler_loop_exit_witness :
    (tricklerCleanup ⟨⟨10, 90, 3, none⟩, ⟨2, 1, 1, 100, 7, 3, 20, 9⟩⟩).motor.pwmValue = 0 ∧
    (tricklerCleanup ⟨⟨10, 90, 3, none⟩, ⟨2, 1, 1, 100, 7, 3, 20, 9⟩⟩).motor.published = some 0 ∧
    (tricklerCleanup ⟨⟨10, 90, 3, none⟩, ⟨2, 1, 1, 100, 7, 3, 20, 9⟩⟩).pid.ITerm = 0 ∧
    (tricklerCleanup ⟨⟨10, 90, 3, none⟩, ⟨2, 1, 1, 100, 7, 3, 20, 9⟩⟩).pid.lastError = 0 ∧
    (tricklerCleanup ⟨⟨10, 90, 3, none⟩, ⟨2, 1, 1, 100, 7, 3, 20, 9⟩⟩).pid.output = 0 :=
  (trickler_loop_exit ⟨10, .GRAINS⟩ [⟨false, 5, .GRAINS, 1⟩]
    ⟨⟨10, 90, 3, none⟩, ⟨2, 1, 1, 100, 7, 3, 20, 9⟩⟩
    (tricklerCleanup ⟨⟨10, 90, 3, none⟩, ⟨2, 1, 1, 100, 7, 3, 20, 9⟩⟩)
    (by norm_num) rfl).1

/-- Claim C6 (code bug): update_settings as written raises NameError on
every request — its set calls reference an undefined module name memcache
while reads use MC_CLIENT — so no settings write ever lands; on the body
the code spells (with the set calls bound to MC_CLIENT), an absent/None
field leaves the corresponding key unchanged (merge, not replace). -/
theorem update_settings_contract :
    update_settings ⟨some true, some ⟨false, [5], 0⟩, some .GRAINS⟩
        ⟨none, some ⟨false, [7], 0⟩, none⟩ = .error .nameError ∧
    (∀ (store : SettingsStore) (s : Setting),
      (update_settings_sets store { s with auto_mode := none }).auto_mode =
        store.auto_mode ∧
      (update_settings_sets store { s with target_weight := none }).target_weight =
        store.target_weight ∧
      (update_settings_sets store { s with target_unit := none }).target_unit =
        store.target_unit) := by
  refine ⟨rfl, ?_⟩
  intro store s
  refine ⟨rfl, rfl, rfl⟩

/-! ## Parser lemmas -/

theorem isDigitCh_not_special {c : Char} (h : isDigitCh c = true) :
    isPyWsChar c = false ∧ c ≠ '.' ∧ c ≠ 'e' ∧ c ≠ 'E' ∧ c ≠ '+' ∧ c ≠ '-' ∧
    c.toNat < 128 ∧ digitVal c < 10 := by
  have h' : 48 ≤ c.toNat ∧ c.toNat ≤ 57 := by
    unfold isDigitCh at h
    simpa using h
  refine ⟨?_, ?_, ?_, ?_, ?_, ?_, by omega, by unfold digitVal; omega⟩
  · apply decide_eq_false
    intro hm
    unfold pyWsChars at hm
    fin_cases hm <;> revert h' <;> decide
  · rintro rfl
    exact absurd h'.1 (by decide)
  · rintro rfl
    exact absurd h'.2 (by decide)
  · rintro rfl
    exact absurd h'.2 (by decide)
  · rintro rfl
    exact absurd h'.1 (by decide)
  · rintro rfl
    exact absurd h'.1 (by decide)

theorem charsToDigits_some_facts {l : List Char} {ds : List Nat}
    (h : charsToDigits l = some ds) :
    ds = l.map digitVal ∧ ∀ c ∈ l, isDigitCh c = true := by
  unfold charsToDigits at h
  by_cases ha : l.all isDigitCh
  · rw [if_pos ha] at h
    exact ⟨(Option.some.inj h).symm, List.all_eq_true.mp ha⟩
  · rw [if_neg ha] at h
    cases h

theorem takeSign_cases (s : List Char) :
    (s = (takeSign s).2 ∧ (takeSign s).1 = false) ∨
    (s = '+' :: (takeSign s).2 ∧ (takeSign s).1 = false) ∨
    (s = '-' :: (takeSign s).2 ∧ (takeSign s).1 = true) := by
  rcases s with _ | ⟨c, r⟩
  · exact Or.inl ⟨rfl, rfl⟩
  · by_cases hp : c = '+'
    · subst hp
      right
      left
      constructor <;> simp [takeSign]
    · by_cases hm : c = '-'
      · subst hm
        right
        right
        constructor <;> simp [takeSign]
      · left
        constructor <;> simp [takeSign, hp, hm]

theorem splitFirst_none_decomp {p : Char → Bool} {l : List Char}
    (h : (splitFirst p l).2 = none) :
    (splitFirst p l).1 = l ∧ ∀ c ∈ l, p c = false := by
  induction l with
  | nil => exact ⟨rfl, by simp⟩
  | cons c t ih =>
    by_cases hc : p c = true
    · simp [splitFirst, hc] at h
    · have hc' : p c = false := by simpa using hc
      simp only [splitFirst, hc', Bool.false_eq_true, if_false] at h ⊢
      obtain ⟨h1, h2⟩ := ih h
      refine ⟨by rw [h1], ?_⟩
      intro x hx
      rcases List.mem_cons.mp hx with rfl | hx'
      · exact hc'
      · exact h2 x hx'

theorem splitFirst_some_decomp {p : Char → Bool} {l b : List Char}
    (h : (splitFirst p l).2 = some b) :
    ∃ ch, p ch = true ∧ l = (splitFirst p l).1 ++ ch :: b ∧
      ∀ c ∈ (splitFirst p l).1, p c = false := by
  induction l with
  | nil => simp [splitFirst] at h
  | cons c t ih =>
    by_cases hc : p c = true
    · simp only [splitFirst, hc, if_true] at h ⊢
      refine ⟨c, hc, ?_, by simp⟩
      rw [Option.some.inj h]
      simp
    · have hc' : p c = false := by simpa using hc
      simp only [splitFirst, hc', Bool.false_eq_true, if_false] at h ⊢
      obtain ⟨ch, hch, hsplit, hall⟩ := ih h
      refine ⟨ch, hch, by rw [List.cons_append, ← hsplit], ?_⟩
      intro x hx
      rcases List.mem_cons.mp hx with rfl | hx'
      · exact hc'
      · exact hall x hx'


/-- Inversion of the spec-side numeral reader: success exposes the digit
decomposition around the optional point and the value formula. -/
theorem specNumeral_inv {s : List Char} {q : ℚ}
    (h : specNumeralValue s = some q) :
    ∃ ids fds,
      charsToDigits (splitFirst (fun c => c = '.') (takeSign s).2).1 = some ids ∧
      charsToDigits ((splitFirst (fun c => c = '.') (takeSign s).2).2.getD []) = some fds ∧
      ¬((splitFirst (fun c => c = '.') (takeSign s).2).1 = [] ∧
        (splitFirst (fun c => c = '.') (takeSign s).2).2.getD [] = []) ∧
      q = (if (takeSign s).1 then -1 else 1) * (natOfDigits (ids ++ fds) : ℚ) /
        10 ^ ((splitFirst (fun c => c = '.') (takeSign s).2).2.getD []).length := by
  simp only [specNumeralValue] at h
  rcases hids : charsToDigits (splitFirst (fun c => c = '.') (takeSign s).2).1 with
    _ | ids
  · simp [hids] at h
  rcases hfds : charsToDigits
      ((splitFirst (fun c => c = '.') (takeSign s).2).2.getD []) with _ | fds
  · simp [hids, hfds] at h
  rw [hids, hfds] at h
  have h' : (if (splitFirst (fun c => c = '.') (takeSign s).2).1 = [] ∧
      (splitFirst (fun c => c = '.') (takeSign s).2).2.getD [] = [] then none
    else some ((if (takeSign s).1 then (-1 : ℚ) else 1) *
      (natOfDigits (ids ++ fds) : ℚ) /
      10 ^ ((splitFirst (fun c => c = '.') (takeSign s).2).2.getD []).length)) =
      some q := h
  by_cases hee : (splitFirst (fun c => c = '.') (takeSign s).2).1 = [] ∧
      (splitFirst (fun c => c = '.') (takeSign s).2).2.getD [] = []
  · rw [if_pos hee] at h'
    cases h'
  · rw [if_neg hee] at h'
    exact ⟨ids, fds, rfl, rfl, hee, (Option.some.inj h').symm⟩

/-- Computation of pyDecimalParse on a whitespace-free, exponent-free
numeral, given the decomposition of its mantissa. -/
theorem pyParse_compute {s : List Char} {ids fds : List Nat}
    (hws : ∀ c ∈ s, isPyWsChar c = false)
    (hnoE : ∀ c ∈ (takeSign s).2, (fun c => decide (c = 'e' ∨ c = 'E')) c = false)
    (hids : charsToDigits (splitFirst (fun c => c = '.') (takeSign s).2).1 = some ids)
    (hfds : charsToDigits ((splitFirst (fun c => c = '.') (takeSign s).2).2.getD []) =
      some fds)
    (hne : ¬((splitFirst (fun c => c = '.') (takeSign s).2).1 = [] ∧
      (splitFirst (fun c => c = '.') (takeSign s).2).2.getD [] = [])) :
    pyDecimalParse s = some ⟨(takeSign s).1, stripZeros (ids ++ fds),
      0 - ((splitFirst (fun c => c = '.') (takeSign s).2).2.getD []).length⟩ := by
  simp only [pyDecimalParse]
  rw [strStrip_eq_self hws, splitFirst_all_false hnoE]
  simp only [hids, hfds]
  rw [if_neg hne]

/-- Any string accepted by the spec-side numeral reader parses as a
decimal whose exact value is the numeral's value: the constructor performs
no rounding. -/
theorem parse_of_specNumeral {s : List Char} {q : ℚ}
    (h : specNumeralValue s = some q) :
    ∃ d : Dec, pyDecimalParse s = some d ∧ d.toRat = q := by
  obtain ⟨ids, fds, hids, hfds, hne, hq⟩ := specNumeral_inv h
  have hi := charsToDigits_some_facts hids
  have hf := charsToDigits_some_facts hfds
  have hm_class : ∀ c ∈ (takeSign s).2, isDigitCh c = true ∨ c = '.' := by
    intro c hc
    rcases hip : (splitFirst (fun c => c = '.') (takeSign s).2).2 with _ | fc
    · obtain ⟨h1, -⟩ := splitFirst_none_decomp hip
      rw [h1] at hi
      exact Or.inl (hi.2 c hc)
    · obtain ⟨ch, hch, hsplit, -⟩ := splitFirst_some_decomp hip
      have hch' : ch = '.' := by simpa using hch
      subst hch'
      rw [hsplit] at hc
      rcases List.mem_append.mp hc with hc1 | hc2
      · exact Or.inl (hi.2 c hc1)
      · rcases List.mem_cons.mp hc2 with rfl | hc3
        · exact Or.inr rfl
        · rw [hip] at hf
          exact Or.inl (hf.2 c hc3)
  have hm_ws : ∀ c ∈ (takeSign s).2, isPyWsChar c = false := by
    intro c hc
    rcases hm_class c hc with hd | rfl
    · exact (isDigitCh_not_special hd).1
    · decide
  have hs_ws : ∀ c ∈ s, isPyWsChar c = false := by
    intro c hc
    rcases takeSign_cases s with ⟨hs, -⟩ | ⟨hs, -⟩ | ⟨hs, -⟩ <;> rw [hs] at hc
    · exact hm_ws c hc
    · rcases List.mem_cons.mp hc with rfl | hc'
      · decide
      · exact hm_ws c hc'
    · rcases List.mem_cons.mp hc with rfl | hc'
      · decide
      · exact hm_ws c hc'
  have hm_noE : ∀ c ∈ (takeSign s).2,
      (fun c => decide (c = 'e' ∨ c = 'E')) c = false := by
    intro c hc
    apply decide_eq_false
    rcases hm_class c hc with hd | rfl
    · rintro (rfl | rfl)
      · exact absurd rfl (isDigitCh_not_special hd).2.2.1
      · exact absurd rfl (isDigitCh_not_special hd).2.2.2.1
    · rintro (h' | h') <;> cases h'
  refine ⟨_, pyParse_compute hs_ws hm_noE hids hfds hne, ?_⟩
  rw [hq]
  unfold Dec.toRat
  simp only
  rw [natOfDigits_stripZeros, zero_sub, zpow_neg, zpow_natCast, div_eq_mul_inv]

/-- Claim C8: for each supported vendor decoder (AND, Creedmoor, US
Solid), a well-formed stable-class line decodes to a reading whose weight
is exactly the rational value of the numeric substring taken at the
vendor's fixed byte offsets (decimal arithmetic, no rounding) and whose
resolution is the vendor's resolution_map entry for the decoded unit. -/
theorem decoders_exact :
    (∀ (st : ANDState) (raw : List Nat) (line : List Char) (q : ℚ) (u : Units),
      utf8Decode (bytesStrip raw) = some line →
      pySlice 0 2 line = ['S', 'T'] →
      specNumeralValue (strStrip (pySlice 3 12 line)) = some q →
      andUnitMap (strStrip (pySlice 12 15 line)) = some u →
      andResultFields (andUpdate st raw) = some (q, u, andResolutionMap u, .STABLE)) ∧
    (∀ (st : WindowScaleState) (raw : List Nat) (line : List Char) (q : ℚ) (u : Units),
      utf8Decode (bytesRStripCRLF raw) = some line →
      pySlice 0 1 line = ['+'] ∨ pySlice 0 1 line = ['-'] →
      specNumeralValue (pySlice 0 8 line) = some q →
      creedmoorUnitMap (pySlice 9 11 line) = some u →
      windowResultFields (creedmoorUpdate st raw) =
        some (q, u, creedmoorResolutionMap u)) ∧
    (∀ (st : WindowScaleState) (raw : List Nat) (line : List Char) (q : ℚ) (u : Units),
      utf8Decode (bytesRStripCRLF raw) = some line →
      pySlice 0 1 line = ['+'] ∨ pySlice 0 1 line = ['-'] →
      specNumeralValue ((pySlice 0 9 line).filter (· ≠ ' ')) = some q →
      ussolidUnitMap (strStrip (pySlice 9 11 line)) = some u →
      windowResultFields (ussolidUpdate st raw) =
        some (q, u, ussolidResolutionMap u)) := by
  refine ⟨?_, ?_, ?_⟩
  · intro st raw line q u hdec hpfx hnum hunit
    obtain ⟨d, hparse, hval⟩ := parse_of_specNumeral hnum
    unfold andUpdate
    rw [hdec]
    simp only [hpfx]
    simp [andStableUnstable, hparse, hunit, andResultFields, andPublish, hval]
  · intro st raw line q u hdec hpfx hnum hunit
    obtain ⟨d, hparse, hval⟩ := parse_of_specNumeral hnum
    unfold creedmoorUpdate
    rw [hdec]
    rcases hpfx with hp | hp <;>
      simp [hp, creedmoorStableUnstable, hparse, hunit, windowResultFields,
        windowPublish, hval]
  · intro st raw line q u hdec hpfx hnum hunit
    obtain ⟨d, hparse, hval⟩ := parse_of_specNumeral hnum
    simp only [ne_eq, decide_not] at hparse
    unfold ussolidUpdate
    rw [hdec]
    rcases hpfx with hp | hp <;>
      simp [hp, ussolidStableUnstable, hparse, hunit, windowResultFields,
        windowPublish, hval]

/-- Witness for C8: the AND line b"ST,+0012.340 GN" (weight exactly
12.340 = 12340/10^3), the Creedmoor line b"+0012.34 GN" and the US Solid
line b"+   2.340gn". -/
theorem decoders_exact_witness :
    andResultFields (andUpdate ⟨.UNSTABLE, ⟨false, [0], 0⟩, .GRAINS, ⟨false, [2], -2⟩, none⟩
        [83, 84, 44, 43, 48, 48, 49, 50, 46, 51, 52, 48, 32, 71, 78]) =
      some ((1 : ℚ) * ((12340 : ℕ) : ℚ) / 10 ^ (3 : ℕ), .GRAINS,
        andResolutionMap .GRAINS, .STABLE) ∧
    windowResultFields (creedmoorUpdate
        ⟨.STABLE, ⟨false, [0], 0⟩, .GRAINS, ⟨false, [1], -2⟩, 3, [], none⟩
        [43, 48, 48, 49, 50, 46, 51, 52, 32, 71, 78]) =
      some ((1 : ℚ) * ((1234 : ℕ) : ℚ) / 10 ^ (2 : ℕ), .GRAINS,
        creedmoorResolutionMap .GRAINS) ∧
    windowResultFields (ussolidUpdate
        ⟨.STABLE, ⟨false, [0], 0⟩, .GRAINS, ⟨false, [1], -3⟩, 3, [], none⟩
        [43, 32, 32, 32, 50, 46, 51, 52, 48, 103, 110]) =
      some ((1 : ℚ) * ((2340 : ℕ) : ℚ) / 10 ^ (3 : ℕ), .GRAINS,
        ussolidResolutionMap .GRAINS) :=
  ⟨decoders_exact.1 _ _ ['S', 'T', ',', '+', '0', '0', '1', '2', '.', '3', '4', '0',
      ' ', 'G', 'N'] _ _ (by decide) (by decide) rfl (by decide),
    decoders_exact.2.1 _ _ ['+', '0', '0', '1', '2', '.', '3', '4', ' ', 'G', 'N'] _ _
      (by decide) (Or.inl (by decide)) rfl (by decide),
    decoders_exact.2.2 _ _ ['+', ' ', ' ', ' ', '2', '.', '3', '4', '0', 'g', 'n'] _ _
      (by decide) (Or.inl (by decide)) rfl (by decide)⟩

/-! ## Digit rendering lemmas (for the str round trip) -/

theorem charsToDigits_of_all {l : List Char} (h : ∀ c ∈ l, isDigitCh c = true) :
    charsToDigits l = some (l.map digitVal) := by
  unfold charsToDigits
  rw [if_pos (List.all_eq_true.mpr h)]

theorem digitsToChars_all_digit {ds : List Nat} (h : ∀ k ∈ ds, k < 10) :
    ∀ c ∈ digitsToChars ds, isDigitCh c = true := by
  intro c hc
  obtain ⟨k, hk, rfl⟩ := List.mem_map.mp hc
  exact (digitChar_facts k (h k hk)).1

theorem map_digitVal_digitsToChars {ds : List Nat} (h : ∀ k ∈ ds, k < 10) :
    (digitsToChars ds).map digitVal = ds := by
  have h1 := charsToDigits_digitsToChars h
  have h2 := (charsToDigits_some_facts h1).1
  exact h2.symm

theorem digitsBE_lt_ten (n : Nat) : ∀ k ∈ digitsBE n, k < 10 := by
  intro k hk
  unfold digitsBE at hk
  by_cases h0 : n = 0
  · rw [if_pos h0] at hk
    simp at hk
    omega
  · rw [if_neg h0] at hk
    exact Nat.digits_lt_base (by norm_num) (List.mem_reverse.mp hk)

theorem natOfDigits_reverse_ofDigits (L : List Nat) :
    natOfDigits L.reverse = Nat.ofDigits 10 L := by
  induction L with
  | nil => rfl
  | cons c t ih =>
    rw [List.reverse_cons, natOfDigits_append, Nat.ofDigits_cons]
    simp only [List.foldl_cons, List.foldl_nil, ih]
    ring

theorem natOfDigits_digitsBE (n : Nat) : natOfDigits (digitsBE n) = n := by
  unfold digitsBE
  by_cases h0 : n = 0
  · rw [if_pos h0, h0]
    rfl
  · rw [if_neg h0, natOfDigits_reverse_ofDigits]
    exact_mod_cast Nat.ofDigits_digits 10 n

theorem natToChars_ne_nil (n : Nat) : natToChars n ≠ [] := by
  unfold natToChars digitsToChars digitsBE
  by_cases h0 : n = 0
  · rw [if_pos h0]
    simp
  · rw [if_neg h0]
    simp [Nat.digits_ne_nil_iff_ne_zero.mpr h0]

theorem natToChars_all_digit (n : Nat) : ∀ c ∈ natToChars n, isDigitCh c = true :=
  digitsToChars_all_digit (digitsBE_lt_ten n)

theorem natToChars_map_digitVal (n : Nat) :
    (natToChars n).map digitVal = digitsBE n :=
  map_digitVal_digitsToChars (digitsBE_lt_ten n)

theorem parseExpTail_pos (n : Nat) :
    parseExpTail ('+' :: natToChars n) = some (n : Int) := by
  unfold parseExpTail
  have hts : takeSign ('+' :: natToChars n) = (false, natToChars n) := by
    simp [takeSign]
  rw [hts]
  simp only
  rw [if_pos ⟨natToChars_ne_nil n, List.all_eq_true.mpr (natToChars_all_digit n)⟩]
  simp only [Bool.false_eq_true, if_false, natToChars_map_digitVal,
    natOfDigits_digitsBE]

theorem parseExpTail_neg (n : Nat) :
    parseExpTail ('-' :: natToChars n) = some (-(n : Int)) := by
  unfold parseExpTail
  have hts : takeSign ('-' :: natToChars n) = (true, natToChars n) := by
    simp [takeSign]
  rw [hts]
  simp only
  rw [if_pos ⟨natToChars_ne_nil n, List.all_eq_true.mpr (natToChars_all_digit n)⟩]
  simp only [if_true, natToChars_map_digitVal, natOfDigits_digitsBE]

theorem charsToDigits_nil : charsToDigits [] = some [] := rfl

theorem digit_not_e {ic : List Char} (hic : ∀ c ∈ ic, isDigitCh c = true) :
    ∀ c ∈ ic, (fun c => decide (c = 'e' ∨ c = 'E')) c = false := by
  intro c hc
  have h := isDigitCh_not_special (hic c hc)
  apply decide_eq_false
  rintro (rfl | rfl)
  · exact absurd rfl h.2.2.1
  · exact absurd rfl h.2.2.2.1

theorem digit_not_dot {ic : List Char} (hic : ∀ c ∈ ic, isDigitCh c = true) :
    ∀ c ∈ ic, (fun c => decide (c = '.')) c = false := by
  intro c hc
  have h := isDigitCh_not_special (hic c hc)
  apply decide_eq_false
  rintro rfl
  exact absurd rfl h.2.1

theorem takeSign_core {sgn : Bool} {sc : List Char} (m : List Char)
    (hsc : (sc = [] ∧ sgn = false) ∨ (sc = ['+'] ∧ sgn = false) ∨
      (sc = ['-'] ∧ sgn = true))
    (hhead : ∀ c, m.head? = some c → c ≠ '+' ∧ c ≠ '-') :
    takeSign (sc ++ m) = (sgn, m) := by
  rcases hsc with ⟨rfl, rfl⟩ | ⟨rfl, rfl⟩ | ⟨rfl, rfl⟩
  · rcases m with _ | ⟨c0, t0⟩
    · rfl
    · have h := hhead c0 rfl
      simp [takeSign, h.1, h.2]
  · simp [takeSign]
  · simp [takeSign]

/-- pyDecimalParse on a built numeral with no decimal point:
optional sign, a nonempty run of digit characters, an optional
E-exponent suffix. -/
theorem pyParse_core_nodot (sgn : Bool) (sc ic esf : List Char) (ev : Int)
    (hsc : (sc = [] ∧ sgn = false) ∨ (sc = ['+'] ∧ sgn = false) ∨
      (sc = ['-'] ∧ sgn = true))
    (hic : ∀ c ∈ ic, isDigitCh c = true) (hne : ic ≠ [])
    (heo : (esf = [] ∧ ev = 0) ∨
      ∃ t, esf = 'E' :: t ∧ parseExpTail t = some ev ∧ ∀ c ∈ t, isPyWsChar c = false) :
    pyDecimalParse (sc ++ ic ++ esf) =
      some ⟨sgn, stripZeros (ic.map digitVal), ev⟩ := by
  have hsc_ws : ∀ c ∈ sc, isPyWsChar c = false := by
    rcases hsc with ⟨rfl, -⟩ | ⟨rfl, -⟩ | ⟨rfl, -⟩ <;> intro c hc <;> simp at hc
    · subst hc
      decide
    · subst hc
      decide
  have hhead : ∀ c, (ic ++ esf).head? = some c → c ≠ '+' ∧ c ≠ '-' := by
    intro c hc
    obtain ⟨c0, t0, rfl⟩ := List.exists_cons_of_ne_nil hne
    rw [List.cons_append, List.head?_cons] at hc
    obtain rfl := Option.some.inj hc
    have h := isDigitCh_not_special (hic c0 (by simp))
    exact ⟨h.2.2.2.2.1, h.2.2.2.2.2.1⟩
  have hts : takeSign (sc ++ ic ++ esf) = (sgn, ic ++ esf) := by
    rw [List.append_assoc]
    exact takeSign_core (ic ++ esf) hsc hhead
  rcases heo with ⟨rfl, rfl⟩ | ⟨t, rfl, hpt, htws⟩
  · have hws : ∀ c ∈ sc ++ ic ++ [], isPyWsChar c = false := by
      intro c hc
      rw [List.append_nil] at hc
      rcases List.mem_append.mp hc with h1 | h2
      · exact hsc_ws c h1
      · exact (isDigitCh_not_special (hic c h2)).1
    simp only [pyDecimalParse]
    rw [strStrip_eq_self hws, hts]
    simp only [List.append_nil]
    rw [splitFirst_all_false (digit_not_e hic)]
    simp only [splitFirst_all_false (digit_not_dot hic), charsToDigits_of_all hic,
      charsToDigits_nil, Option.getD_none]
    rw [if_neg (fun hh => hne hh.1)]
    simp
  · have hws : ∀ c ∈ sc ++ ic ++ ('E' :: t), isPyWsChar c = false := by
      intro c hc
      rcases List.mem_append.mp hc with h1 | h2
      · rcases List.mem_append.mp h1 with h3 | h4
        · exact hsc_ws c h3
        · exact (isDigitCh_not_special (hic c h4)).1
      · rcases List.mem_cons.mp h2 with rfl | h5
        · decide
        · exact htws c h5
    simp only [pyDecimalParse]
    rw [strStrip_eq_self hws, hts]
    rw [splitFirst_append t (digit_not_e hic) (by decide)]
    simp only [hpt]
    simp only [splitFirst_all_false (digit_not_dot hic), charsToDigits_of_all hic,
      charsToDigits_nil, Option.getD_none]
    rw [if_neg (fun hh => hne hh.1)]
    simp

/-- pyDecimalParse on a built numeral with a decimal point. -/
theorem pyParse_core_dot (sgn : Bool) (sc ic fc esf : List Char) (ev : Int)
    (hsc : (sc = [] ∧ sgn = false) ∨ (sc = ['+'] ∧ sgn = false) ∨
      (sc = ['-'] ∧ sgn = true))
    (hic : ∀ c ∈ ic, isDigitCh c = true) (hfc : ∀ c ∈ fc, isDigitCh c = true)
    (hne : ¬(ic = [] ∧ fc = []))
    (heo : (esf = [] ∧ ev = 0) ∨
      ∃ t, esf = 'E' :: t ∧ parseExpTail t = some ev ∧ ∀ c ∈ t, isPyWsChar c = false) :
    pyDecimalParse (sc ++ (ic ++ '.' :: fc) ++ esf) =
      some ⟨sgn, stripZeros (ic.map digitVal ++ fc.map digitVal),
        ev - (fc.length : Int)⟩ := by
  have hsc_ws : ∀ c ∈ sc, isPyWsChar c = false := by
    rcases hsc with ⟨rfl, -⟩ | ⟨rfl, -⟩ | ⟨rfl, -⟩ <;> intro c hc <;> simp at hc
    · subst hc
      decide
    · subst hc
      decide
  have hmant_ws : ∀ c ∈ ic ++ '.' :: fc, isPyWsChar c = false := by
    intro c hc
    rcases List.mem_append.mp hc with h1 | h2
    · exact (isDigitCh_not_special (hic c h1)).1
    · rcases List.mem_cons.mp h2 with rfl | h3
      · decide
      · exact (isDigitCh_not_special (hfc c h3)).1
  have hmant_noE : ∀ c ∈ ic ++ '.' :: fc,
      (fun c => decide (c = 'e' ∨ c = 'E')) c = false := by
    intro c hc
    rcases List.mem_append.mp hc with h1 | h2
    · exact digit_not_e hic c h1
    · rcases List.mem_cons.mp h2 with rfl | h3
      · decide
      · exact digit_not_e hfc c h3
  have hhead : ∀ c, ((ic ++ '.' :: fc) ++ esf).head? = some c →
      c ≠ '+' ∧ c ≠ '-' := by
    intro c hc
    rcases ic with _ | ⟨c0, t0⟩
    · simp only [List.nil_append, List.cons_append, List.head?_cons] at hc
      obtain rfl := Option.some.inj hc
      exact ⟨by decide, by decide⟩
    · simp only [List.cons_append, List.head?_cons] at hc
      obtain rfl := Option.some.inj hc
      have h := isDigitCh_not_special (hic c0 (by simp))
      exact ⟨h.2.2.2.2.1, h.2.2.2.2.2.1⟩
  have hts : takeSign (sc ++ (ic ++ '.' :: fc) ++ esf) =
      (sgn, (ic ++ '.' :: fc) ++ esf) := by
    rw [List.append_assoc]
    exact takeSign_core ((ic ++ '.' :: fc) ++ esf) hsc hhead
  have hdot : splitFirst (fun c => c = '.') (ic ++ '.' :: fc) = (ic, some fc) :=
    splitFirst_append fc (digit_not_dot hic) (by decide)
  rcases heo with ⟨rfl, rfl⟩ | ⟨t, rfl, hpt, htws⟩
  · have hws : ∀ c ∈ sc ++ (ic ++ '.' :: fc) ++ [], isPyWsChar c = false := by
      intro c hc
      rw [List.append_nil] at hc
      rcases List.mem_append.mp hc with h1 | h2
      · exact hsc_ws c h1
      · exact hmant_ws c h2
    simp only [pyDecimalParse]
    rw [strStrip_eq_self hws, hts]
    simp only [List.append_nil]
    rw [splitFirst_all_false hmant_noE]
    simp only [hdot, Option.getD_some, charsToDigits_of_all hic,
      charsToDigits_of_all hfc]
    rw [if_neg hne]
  · have hws : ∀ c ∈ sc ++ (ic ++ '.' :: fc) ++ ('E' :: t), isPyWsChar c = false := by
      intro c hc
      rcases List.mem_append.mp hc with h1 | h2
      · rcases List.mem_append.mp h1 with h3 | h4
        · exact hsc_ws c h3
        · exact hmant_ws c h4
      · rcases List.mem_cons.mp h2 with rfl | h5
        · decide
        · exact htws c h5
    simp only [pyDecimalParse]
    rw [strStrip_eq_self hws, hts]
    rw [splitFirst_append t hmant_noE (by decide)]
    simp only [hpt]
    simp only [hdot, Option.getD_some, charsToDigits_of_all hic,
      charsToDigits_of_all hfc]
    rw [if_neg hne]

theorem stripZeros_cons_zero (ds : List Nat) : stripZeros (0 :: ds) = stripZeros ds := by
  have h := stripZeros_replicate_append 1 ds
  simpa using h

/-- str(Decimal) round-trips through the Decimal constructor: parsing the
rendered string recovers the decimal exactly (sign, coefficient and
exponent). -/
theorem pyDecimalParse_decToString {d : Dec} (h : d.Valid) :
    pyDecimalParse (decToString d) = some d := by
  obtain ⟨hne, hlt, hlead⟩ := h
  have hlen1 : 1 ≤ d.digits.length := List.length_pos.mpr hne
  have hmap : (digitsToChars d.digits).map digitVal = d.digits :=
    map_digitVal_digitsToChars hlt
  have hstrip : stripZeros d.digits = d.digits := stripZeros_valid hne hlead
  have hzero_map : ∀ k : Nat, (List.replicate k '0').map digitVal =
      List.replicate k 0 := by
    intro k
    rw [List.map_replicate]
    rfl
  have hsc : ((if d.sign then ['-'] else []) = [] ∧ d.sign = false) ∨
      ((if d.sign then ['-'] else []) = ['+'] ∧ d.sign = false) ∨
      ((if d.sign then ['-'] else []) = ['-'] ∧ d.sign = true) := by
    cases hsgn : d.sign
    · exact Or.inl ⟨by simp, rfl⟩
    · exact Or.inr (Or.inr ⟨by simp, rfl⟩)
  by_cases hfix : d.exp ≤ 0 ∧ -6 < d.exp + (d.digits.length : Int)
  · -- fixed-point form, no exponent part
    have hstr0 : decToString d =
        (if d.sign then ['-'] else []) ++
        (if d.exp + (d.digits.length : Int) ≤ 0 then
          '0' :: '.' :: (List.replicate (-(d.exp + (d.digits.length : Int))).toNat '0' ++
            digitsToChars d.digits)
        else if (d.digits.length : Int) ≤ d.exp + (d.digits.length : Int) then
          digitsToChars d.digits ++
            List.replicate (d.exp + (d.digits.length : Int) -
              (d.digits.length : Int)).toNat '0'
        else
          digitsToChars (d.digits.take (d.exp + (d.digits.length : Int)).toNat) ++
            '.' :: digitsToChars (d.digits.drop
              (d.exp + (d.digits.length : Int)).toNat)) ++ [] := by
      simp only [decToString, if_pos hfix]
      simp
    by_cases hdp : d.exp + (d.digits.length : Int) ≤ 0
    · -- 0.00…digits
      rw [hstr0, if_pos hdp]
      have hcore := pyParse_core_dot d.sign (if d.sign then ['-'] else []) ['0']
        (List.replicate (-(d.exp + (d.digits.length : Int))).toNat '0' ++
          digitsToChars d.digits) [] 0 hsc
        (by intro c hc; simp at hc; subst hc; decide)
        (by
          intro c hc
          rcases List.mem_append.mp hc with h1 | h2
          · have := List.eq_of_mem_replicate h1
            subst this
            decide
          · exact digitsToChars_all_digit hlt c h2)
        (by simp) (Or.inl ⟨rfl, rfl⟩)
      simp only [List.cons_append, List.nil_append] at hcore ⊢
      rw [hcore]
      have hdig : stripZeros (List.map digitVal ['0'] ++
          List.map digitVal (List.replicate (-(d.exp + (d.digits.length : Int))).toNat '0' ++
            digitsToChars d.digits)) = d.digits := by
        rw [List.map_append, hzero_map, hmap]
        rw [show List.map digitVal ['0'] = [0] from by decide]
        simp only [List.cons_append, List.nil_append]
        rw [stripZeros_cons_zero, stripZeros_replicate_append, hstrip]
      have hexp : (0 : Int) - ((List.replicate (-(d.exp + (d.digits.length : Int))).toNat '0' ++
          digitsToChars d.digits).length : Int) = d.exp := by
        have hk : ((-(d.exp + (d.digits.length : Int))).toNat : Int) =
            -(d.exp + (d.digits.length : Int)) := Int.toNat_of_nonneg (by omega)
        rw [List.length_append, List.length_replicate]
        unfold digitsToChars
        rw [List.length_map]
        push_cast [hk]
        ring
      rw [hdig, hexp]
    · by_cases hd2 : (d.digits.length : Int) ≤ d.exp + (d.digits.length : Int)
      · -- plain digits, exponent 0
        have hexp0 : d.exp = 0 := by omega
        rw [hstr0, if_neg hdp, if_pos hd2]
        have hrep0 : List.replicate (d.exp + (d.digits.length : Int) -
            (d.digits.length : Int)).toNat '0' = ([] : List Char) := by
          rw [hexp0]
          simp
        rw [hrep0, List.append_nil]
        have hcore := pyParse_core_nodot d.sign (if d.sign then ['-'] else [])
          (digitsToChars d.digits) [] 0 hsc (digitsToChars_all_digit hlt)
          (by
            intro h0
            apply hne
            unfold digitsToChars at h0
            simpa using h0)
          (Or.inl ⟨rfl, rfl⟩)
        simp only [List.append_nil] at hcore ⊢
        rw [hcore, hmap, hstrip, ← hexp0]
      · -- digits with an interior point
        rw [hstr0, if_neg hdp, if_neg hd2, List.append_nil]
        have htake : ∀ c ∈ d.digits.take (d.exp + (d.digits.length : Int)).toNat,
            c < 10 := fun c hc => hlt c (List.take_subset _ _ hc)
        have hdrop : ∀ c ∈ d.digits.drop (d.exp + (d.digits.length : Int)).toNat,
            c < 10 := fun c hc => hlt c (List.drop_subset _ _ hc)
        have htne : d.digits.take (d.exp + (d.digits.length : Int)).toNat ≠ [] := by
          intro h0
          have hl := congrArg List.length h0
          rw [List.length_take] at hl
          simp only [List.length_nil] at hl
          omega
        have hcore := pyParse_core_dot d.sign (if d.sign then ['-'] else [])
          (digitsToChars (d.digits.take (d.exp + (d.digits.length : Int)).toNat))
          (digitsToChars (d.digits.drop (d.exp + (d.digits.length : Int)).toNat))
          [] 0 hsc (digitsToChars_all_digit htake) (digitsToChars_all_digit hdrop)
          (by
            intro hh
            apply htne
            have := hh.1
            unfold digitsToChars at this
            simpa using this)
          (Or.inl ⟨rfl, rfl⟩)
        simp only [List.append_nil] at hcore ⊢
        rw [hcore]
        have hdig : stripZeros ((digitsToChars (d.digits.take
            (d.exp + (d.digits.length : Int)).toNat)).map digitVal ++
            (digitsToChars (d.digits.drop (d.exp + (d.digits.length : Int)).toNat)).map
              digitVal) = d.digits := by
          rw [map_digitVal_digitsToChars htake, map_digitVal_digitsToChars hdrop,
            List.take_append_drop, hstrip]
        have hexp : (0 : Int) - ((digitsToChars (d.digits.drop
            (d.exp + (d.digits.length : Int)).toNat)).length : Int) = d.exp := by
          unfold digitsToChars
          rw [List.length_map, List.length_drop]
          omega
        rw [hdig, hexp]
  · -- scientific form
    have hE1 : ¬(d.exp + (d.digits.length : Int) = 1) := by
      push_neg at hfix
      by_cases he : d.exp ≤ 0
      · have := hfix he
        omega
      · omega
    have hstr0 : decToString d =
        (if d.sign then ['-'] else []) ++
        (if (1 : Int) ≤ 0 then
          '0' :: '.' :: (List.replicate (-(1 : Int)).toNat '0' ++ digitsToChars d.digits)
        else if (d.digits.length : Int) ≤ 1 then
          digitsToChars d.digits ++ List.replicate ((1 : Int) - (d.digits.length : Int)).toNat '0'
        else
          digitsToChars (d.digits.take (1 : Int).toNat) ++
            '.' :: digitsToChars (d.digits.drop (1 : Int).toNat)) ++
        ('E' :: (if d.exp + (d.digits.length : Int) - 1 < 0 then
          '-' :: natToChars (d.exp + (d.digits.length : Int) - 1).natAbs
        else '+' :: natToChars (d.exp + (d.digits.length : Int) - 1).toNat)) := by
      simp only [decToString, if_neg hfix]
      rw [if_neg hE1]
    have htail : parseExpTail
        (if d.exp + (d.digits.length : Int) - 1 < 0 then
          '-' :: natToChars (d.exp + (d.digits.length : Int) - 1).natAbs
        else '+' :: natToChars (d.exp + (d.digits.length : Int) - 1).toNat) =
        some (d.exp + (d.digits.length : Int) - 1) := by
      by_cases hce : d.exp + (d.digits.length : Int) - 1 < 0
      · rw [if_pos hce, parseExpTail_neg]
        congr 1
        omega
      · rw [if_neg hce, parseExpTail_pos]
        congr 1
        omega
    have htailws : ∀ c ∈ (if d.exp + (d.digits.length : Int) - 1 < 0 then
          '-' :: natToChars (d.exp + (d.digits.length : Int) - 1).natAbs
        else '+' :: natToChars (d.exp + (d.digits.length : Int) - 1).toNat),
        isPyWsChar c = false := by
      intro c hc
      have hnw : ∀ (m : Nat), ∀ c ∈ natToChars m, isPyWsChar c = false :=
        fun m c hc => (isDigitCh_not_special (natToChars_all_digit m c hc)).1
      by_cases hce : d.exp + (d.digits.length : Int) - 1 < 0 <;>
        [rw [if_pos hce] at hc; rw [if_neg hce] at hc] <;>
        rcases List.mem_cons.mp hc with rfl | hc2
      · decide
      · exact hnw _ c hc2
      · decide
      · exact hnw _ c hc2
    have heo : ∃ t, ('E' :: (if d.exp + (d.digits.length : Int) - 1 < 0 then
          '-' :: natToChars (d.exp + (d.digits.length : Int) - 1).natAbs
        else '+' :: natToChars (d.exp + (d.digits.length : Int) - 1).toNat)) = 'E' :: t ∧
        parseExpTail t = some (d.exp + (d.digits.length : Int) - 1) ∧
        ∀ c ∈ t, isPyWsChar c = false :=
      ⟨_, rfl, htail, htailws⟩
    by_cases hb1 : (d.digits.length : Int) ≤ 1
    · -- single digit mantissa
      have hlen : d.digits.length = 1 := by omega
      rw [hstr0, if_neg (show ¬((1 : Int) ≤ 0) from by norm_num), if_pos hb1]
      have hrep0 : List.replicate ((1 : Int) - (d.digits.length : Int)).toNat '0' =
          ([] : List Char) := by
        rw [hlen]
        simp
      rw [hrep0, List.append_nil]
      have hcore := pyParse_core_nodot d.sign (if d.sign then ['-'] else [])
        (digitsToChars d.digits)
        ('E' :: (if d.exp + (d.digits.length : Int) - 1 < 0 then
          '-' :: natToChars (d.exp + (d.digits.length : Int) - 1).natAbs
        else '+' :: natToChars (d.exp + (d.digits.length : Int) - 1).toNat))
        (d.exp + (d.digits.length : Int) - 1) hsc (digitsToChars_all_digit hlt)
        (by
          intro h0
          apply hne
          unfold digitsToChars at h0
          simpa using h0)
        (Or.inr heo)
      rw [hcore, hmap, hstrip]
      have : d.exp + (d.digits.length : Int) - 1 = d.exp := by
        rw [hlen]
        push_cast
        ring
      rw [this]
    · -- mantissa d.igits
      rw [hstr0, if_neg (show ¬((1 : Int) ≤ 0) from by norm_num), if_neg hb1]
      have htake : ∀ c ∈ d.digits.take (1 : Int).toNat, c < 10 :=
        fun c hc => hlt c (List.take_subset _ _ hc)
      have hdrop : ∀ c ∈ d.digits.drop (1 : Int).toNat, c < 10 :=
        fun c hc => hlt c (List.drop_subset _ _ hc)
      have htne : d.digits.take (1 : Int).toNat ≠ [] := by
        intro h0
        have hl := congrArg List.length h0
        rw [List.length_take] at hl
        simp only [List.length_nil] at hl
        omega
      have hcore := pyParse_core_dot d.sign (if d.sign then ['-'] else [])
        (digitsToChars (d.digits.take (1 : Int).toNat))
        (digitsToChars (d.digits.drop (1 : Int).toNat))
        ('E' :: (if d.exp + (d.digits.length : Int) - 1 < 0 then
          '-' :: natToChars (d.exp + (d.digits.length : Int) - 1).natAbs
        else '+' :: natToChars (d.exp + (d.digits.length : Int) - 1).toNat))
        (d.exp + (d.digits.length : Int) - 1) hsc
        (digitsToChars_all_digit htake) (digitsToChars_all_digit hdrop)
        (by
          intro hh
          apply htne
          have := hh.1
          unfold digitsToChars at this
          simpa using this)
        (Or.inr heo)
      rw [hcore]
      have hdig : stripZeros ((digitsToChars (d.digits.take (1 : Int).toNat)).map
          digitVal ++ (digitsToChars (d.digits.drop (1 : Int).toNat)).map digitVal) =
          d.digits := by
        rw [map_digitVal_digitsToChars htake, map_digitVal_digitsToChars hdrop,
          List.take_append_drop, hstrip]
      have hexp : d.exp + (d.digits.length : Int) - 1 -
          ((digitsToChars (d.digits.drop (1 : Int).toNat)).length : Int) = d.exp := by
        unfold digitsToChars
        rw [List.length_map, List.length_drop]
        push_cast
        omega
      rw [hdig, hexp]

/-! ## UTF-8 round trip on ASCII and claim C10 -/

theorem utf8_roundtrip_ascii {s : List Char} (h : ∀ c ∈ s, c.toNat < 128) :
    utf8Decode (utf8Encode s) = some s := by
  induction s with
  | nil => rfl
  | cons c t ih =>
    have hc : c.toNat < 128 := h c (by simp)
    have henc : utf8EncodeChar c = [c.toNat] := by
      unfold utf8EncodeChar
      rw [if_pos hc]
    have hstep : utf8Encode (c :: t) = c.toNat :: utf8Encode t := by
      unfold utf8Encode
      rw [List.map_cons, List.flatten_cons, henc, List.singleton_append]
    rw [hstep]
    have hchunk : utf8DecodeChunk c.toNat (utf8Encode t) =
        some (Char.ofNat c.toNat, utf8Encode t) := by
      unfold utf8DecodeChunk
      rw [if_pos hc]
    unfold utf8Decode
    rw [List.length_cons]
    rw [utf8DecodeAux, hchunk]
    have hrec : utf8DecodeAux (utf8Encode t).length (utf8Encode t) = some t := ih
      fun x hx => h x (List.mem_cons_of_mem c hx)
    show Option.map (fun x => Char.ofNat c.toNat :: x)
      (utf8DecodeAux (utf8Encode t).length (utf8Encode t)) = some (c :: t)
    rw [hrec]
    simp [Char.ofNat_toNat]

theorem decToString_ascii {d : Dec} (hne : d.digits ≠ [])
    (h : ∀ k ∈ d.digits, k < 10) :
    ∀ c ∈ decToString d, c.toNat < 128 := by
  have hlen1 : 1 ≤ d.digits.length := List.length_pos.mpr hne
  have hd128 : ∀ {l : List Nat}, (∀ k ∈ l, k < 10) →
      ∀ c ∈ digitsToChars l, c.toNat < 128 := fun hl c hc =>
    (isDigitCh_not_special (digitsToChars_all_digit hl c hc)).2.2.2.2.2.2.1
  have hnat128 : ∀ (m : Nat), ∀ c ∈ natToChars m, c.toNat < 128 := fun m c hc =>
    (isDigitCh_not_special (natToChars_all_digit m c hc)).2.2.2.2.2.2.1
  have hsign : ∀ c ∈ (if d.sign then ['-'] else ([] : List Char)), c.toNat < 128 := by
    intro c hc
    split at hc
    · rw [List.mem_singleton] at hc
      subst hc
      decide
    · exact absurd hc (List.not_mem_nil c)
  have hbody : ∀ (a b : Int), ∀ c ∈ (if a ≤ 0 then
        '0' :: '.' :: (List.replicate (-a).toNat '0' ++ digitsToChars d.digits)
      else if (d.digits.length : Int) ≤ a then
        digitsToChars d.digits ++ List.replicate b.toNat '0'
      else
        digitsToChars (d.digits.take a.toNat) ++
          '.' :: digitsToChars (d.digits.drop a.toNat)), c.toNat < 128 := by
    intro a b c hc
    split at hc
    · rcases List.mem_cons.mp hc with rfl | hc2
      · decide
      · rcases List.mem_cons.mp hc2 with rfl | hc3
        · decide
        · rcases List.mem_append.mp hc3 with hc4 | hc5
          · have := List.eq_of_mem_replicate hc4
            subst this
            decide
          · exact hd128 h c hc5
    · split at hc
      · rcases List.mem_append.mp hc with hc1 | hc2
        · exact hd128 h c hc1
        · have := List.eq_of_mem_replicate hc2
          subst this
          decide
      · rcases List.mem_append.mp hc with hc1 | hc2
        · exact hd128 (fun k hk => h k (List.take_subset _ _ hk)) c hc1
        · rcases List.mem_cons.mp hc2 with rfl | hc3
          · decide
          · exact hd128 (fun k hk => h k (List.drop_subset _ _ hk)) c hc3
  intro c hc
  by_cases hfix : d.exp ≤ 0 ∧ -6 < d.exp + (d.digits.length : Int)
  · have hstr0 : decToString d =
        (if d.sign then ['-'] else []) ++
        (if d.exp + (d.digits.length : Int) ≤ 0 then
          '0' :: '.' :: (List.replicate (-(d.exp + (d.digits.length : Int))).toNat '0' ++
            digitsToChars d.digits)
        else if (d.digits.length : Int) ≤ d.exp + (d.digits.length : Int) then
          digitsToChars d.digits ++
            List.replicate (d.exp + (d.digits.length : Int) -
              (d.digits.length : Int)).toNat '0'
        else
          digitsToChars (d.digits.take (d.exp + (d.digits.length : Int)).toNat) ++
            '.' :: digitsToChars (d.digits.drop
              (d.exp + (d.digits.length : Int)).toNat)) ++ [] := by
      simp only [decToString, if_pos hfix]
      simp
    rw [hstr0] at hc
    rcases List.mem_append.mp hc with h1 | h2
    · rcases List.mem_append.mp h1 with hs | hb
      · exact hsign c hs
      · exact hbody _ _ c hb
    · exact absurd h2 (List.not_mem_nil c)
  · have hE1 : ¬(d.exp + (d.digits.length : Int) = 1) := by
      push_neg at hfix
      by_cases he : d.exp ≤ 0
      · have := hfix he
        omega
      · omega
    have hstr0 : decToString d =
        (if d.sign then ['-'] else []) ++
        (if (1 : Int) ≤ 0 then
          '0' :: '.' :: (List.replicate (-(1 : Int)).toNat '0' ++ digitsToChars d.digits)
        else if (d.digits.length : Int) ≤ 1 then
          digitsToChars d.digits ++ List.replicate ((1 : Int) - (d.digits.length : Int)).toNat '0'
        else
          digitsToChars (d.digits.take (1 : Int).toNat) ++
            '.' :: digitsToChars (d.digits.drop (1 : Int).toNat)) ++
        ('E' :: (if d.exp + (d.digits.length : Int) - 1 < 0 then
          '-' :: natToChars (d.exp + (d.digits.length : Int) - 1).natAbs
        else '+' :: natToChars (d.exp + (d.digits.length : Int) - 1).toNat)) := by
      simp only [decToString, if_neg hfix]
      rw [if_neg hE1]
    rw [hstr0] at hc
    rcases List.mem_append.mp hc with h1 | h2
    · rcases List.mem_append.mp h1 with hs | hb
      · exact hsign c hs
      · exact hbody 1 ((1 : Int) - (d.digits.length : Int)) c hb
    · rcases List.mem_cons.mp h2 with rfl | h3
      · decide
      · split at h3 <;> rcases List.mem_cons.mp h3 with rfl | h4
        · decide
        · exact hnat128 _ c h4
        · decide
        · exact hnat128 _ c h4

/-- Counterexample to claim C10: the decimal round trip as composed in the
source raises — decimal_to_bytes builds an array.array('B'), and
bytes_to_str calls .decode on its argument, a method array.array does not
have, so bytes_to_decimal(decimal_to_bytes(d)) raises AttributeError
instead of returning d (shown at d = Decimal('1')). -/
theorem c10_counterexample :
    bytes_to_decimal (decimal_to_bytes ⟨false, [1], 0⟩) = .error .attributeError :=
  rfl

/-- Claim C10 as amended: the bool and enum helpers round-trip as claimed;
the decimal helpers round-trip once the produced byte array is delivered
to bytes_to_decimal as a bytes object (as the BLE transport does) — the
literal composition raises AttributeError because array.array has no
decode method. -/
theorem helpers_roundtrip (b : Bool) (d : Dec) (hd : d.Valid) (cls : List Nat)
    (v : Nat) (hv : v < 256) (hmem : v ∈ cls) :
    bytes_to_bool (bool_to_bytes b) = .ok b ∧
    (enum_to_bytes v = .ok (.arr [v]) ∧ bytes_to_enum cls (.arr [v]) = .ok v) ∧
    bytes_to_decimal (.bytes (decimal_to_bytes d).data) = .ok d := by
  refine ⟨?_, ⟨?_, ?_⟩, ?_⟩
  · cases b <;> rfl
  · unfold enum_to_bytes structPackB
    rw [if_pos hv]
  · unfold bytes_to_enum PyBuf.data
    simp only
    rw [if_pos hmem]
  · have h1 : utf8Decode ((decimal_to_bytes d).data) = some (decToString d) := by
      unfold decimal_to_bytes str_to_bytes PyBuf.data
      exact utf8_roundtrip_ascii (decToString_ascii hd.1 hd.2.1)
    simp only [bytes_to_decimal, bytes_to_str, h1, pyDecimalParse_decToString hd]

/-- Witness for the amended C10: bool true, enum value 2 of a three-value
class, and Decimal('12.340'). -/
theorem helpers_roundtrip_witness :
    bytes_to_bool (bool_to_bytes true) = .ok true ∧
    (enum_to_bytes 2 = .ok (.arr [2]) ∧ bytes_to_enum [0, 1, 2] (.arr [2]) = .ok 2) ∧
    bytes_to_decimal (.bytes (decimal_to_bytes ⟨false, [1, 2, 3, 4, 0], -3⟩).data) =
      .ok ⟨false, [1, 2, 3, 4, 0], -3⟩ :=
  helpers_roundtrip true ⟨false, [1, 2, 3, 4, 0], -3⟩
    ⟨by decide, by decide, Or.inl (by decide)⟩ [0, 1, 2] 2 (by decide) (by decide)

end OpenTrickler
